import Mathlib

/-!
# Verification of the optmem peer store (chihaya-optmem-peerstore)

A shallow embedding of the core data structures and operations of the
`optmem` package: the byte-packed peer record, the per-swarm bucket array
with binary-search insert/delete, the bucket-count heuristic and rebalance,
the 16-bit-timestamp garbage collector, and the sharded store façade.

Go machine integers are modelled as `Nat`/`Int` with explicit wrap-arounds
(`% 2^64` for `uint`); byte strings are `List Nat`; Go's `map` is an
association list with distinct keys; fallible or panicking code returns
`Option`/`Except`.  Loops whose termination depends on the shrinking data
structure carry an explicit fuel argument that is an upper bound on the
iteration count; the main theorems show that on well-formed states the fuel
is never exhausted (a `some` result is produced).
-/

/-- Lexicographic comparison of byte strings, as Go's `bytes.Compare`
(result `.lt`/`.eq`/`.gt` for `< 0` / `== 0` / `> 0`). -/
def bytesCompare : List Nat → List Nat → Ordering
  | [], [] => .eq
  | [], _ :: _ => .lt
  | _ :: _, [] => .gt
  | a :: as, b :: bs =>
    if a < b then .lt
    else if b < a then .gt
    else bytesCompare as bs

theorem bytesCompare_eq_iff : ∀ {a b : List Nat}, bytesCompare a b = .eq ↔ a = b := by
  intro a
  induction a with
  | nil => intro b; cases b <;> simp [bytesCompare]
  | cons x as ih =>
    intro b
    cases b with
    | nil => simp [bytesCompare]
    | cons y bs =>
      simp only [bytesCompare]
      by_cases h1 : x < y
      · simp [h1]; omega
      · by_cases h2 : y < x
        · simp [h1, h2]; omega
        · have hxy : x = y := by omega
          simp [h1, h2, hxy, ih]

theorem bytesCompare_self (a : List Nat) : bytesCompare a a = .eq :=
  bytesCompare_eq_iff.mpr rfl

theorem bytesCompare_swap : ∀ {a b : List Nat},
    bytesCompare a b = .lt ↔ bytesCompare b a = .gt := by
  intro a
  induction a with
  | nil => intro b; cases b <;> simp [bytesCompare]
  | cons x as ih =>
    intro b
    cases b with
    | nil => simp [bytesCompare]
    | cons y bs =>
      simp only [bytesCompare]
      by_cases h1 : x < y
      · have h2 : ¬ y < x := by omega
        simp [h1, h2]
      · by_cases h2 : y < x
        · simp [h1, h2]
        · simp [h1, h2, ih]

theorem bytesCompare_lt_trans : ∀ {a b c : List Nat},
    bytesCompare a b = .lt → bytesCompare b c = .lt → bytesCompare a c = .lt := by
  intro a
  induction a with
  | nil =>
    intro b c hab hbc
    cases b with
    | nil => exact hbc
    | cons y bs =>
      cases c with
      | nil => simp [bytesCompare] at hbc
      | cons z cs => simp [bytesCompare]
  | cons x as ih =>
    intro b c hab hbc
    cases b with
    | nil => simp [bytesCompare] at hab
    | cons y bs =>
      cases c with
      | nil => simp [bytesCompare] at hbc
      | cons z cs =>
        simp only [bytesCompare] at hab hbc ⊢
        by_cases hxy : x < y
        · -- x < y; then from hbc, y ≤ z, so x < z
          by_cases hyz : y < z
          · have : x < z := by omega
            simp [this]
          · by_cases hzy : z < y
            · simp [hxy, hyz, hzy] at hbc
            · have hyz' : y = z := by omega
              have : x < z := by omega
              simp [this]
        · by_cases hyx : y < x
          · simp [hxy, hyx] at hab
          · have hxy' : x = y := by omega
            subst hxy'
            by_cases hxz : x < z
            · simp [hxz]
            · by_cases hzx : z < x
              · simp [hxz, hzx] at hbc
              · simp [hxz, hzx] at hab hbc ⊢
                exact ih (by simpa [hxy] using hab) (by simpa [hxz, hzx] using hbc)

/-- `a ≤ b` (not `.gt`) together with `b < c` gives `a < c`. -/
theorem bytesCompare_le_lt_trans {a b c : List Nat}
    (hab : bytesCompare a b ≠ .gt) (hbc : bytesCompare b c = .lt) :
    bytesCompare a c = .lt := by
  cases hab' : bytesCompare a b with
  | lt => exact bytesCompare_lt_trans hab' hbc
  | eq => rwa [bytesCompare_eq_iff.mp hab']
  | gt => exact absurd hab' hab

/-- `a < b` implies `a ≤ b`. -/
theorem bytesCompare_lt_ne_gt {a b : List Nat} (h : bytesCompare a b = .lt) :
    bytesCompare a b ≠ .gt := by
  rw [h]; intro hc; cases hc

-- ----------------------------------------------------------------------
-- The peer record (types.go): 16-byte IP ++ 2-byte big-endian port = the
-- 18-byte identity prefix, one flag byte, one 16-bit timestamp.
-- ----------------------------------------------------------------------

/-- The 21-byte packed peer record of `types.go`, with the 18 identity bytes
(IP ++ big-endian port) kept as a byte list and the flag byte and the
decoded big-endian 16-bit mtime as numbers. -/
structure Peer where
  ident : List Nat
  flag : Nat
  time : Nat
  deriving DecidableEq, Repr

instance : Inhabited Peer := ⟨⟨[], 0, 0⟩⟩

/-- `peerFlagSeeder` (bit 0). -/
def peerFlagSeeder : Nat := 1

/-- `peerFlagLeecher` (bit 1). -/
def peerFlagLeecher : Nat := 2

/-- `(*peer).isSeeder`: the seeder bit is set. -/
def Peer.isSeeder (p : Peer) : Bool := p.flag &&& peerFlagSeeder != 0

/-- `(*peer).isLeecher`: the leecher bit is set. -/
def Peer.isLeecher (p : Peer) : Bool := p.flag &&& peerFlagLeecher != 0

/-- A bucket: a contiguous array of peer records (`type bucket []peer`). -/
abbrev Bucket := List Peer

/-- The `peerList` of `peer_list.go`.  `numSeeders`/`numPeers` are Go `int`s. -/
structure PeerList where
  numSeeders : Int
  numPeers : Int
  numDownloads : Nat
  peerBuckets : List Bucket
  deriving DecidableEq

/-- `newPeerList`: one empty bucket, zero counters. -/
def newPeerList : PeerList := ⟨0, 0, 0, [[]]⟩

/-- Bucket element access (`bucket[i]`); total with a dummy default, only
used at indices that are in bounds in the Go code. -/
def getP (b : Bucket) (i : Nat) : Peer := List.getD b i default

/-- The DJB2-style hash of `(*peerList).bucketIndex` over the 18 identity
bytes, on Go's 64-bit `uint` (wrapping at `2^64`): `hash += (hash << 5) + b`
starting from 5381. -/
def djb2 (bytes : List Nat) : Nat :=
  bytes.foldl (fun h b => (h + h * 32 + b) % 2 ^ 64) 5381

/-- `(*peerList).bucketIndex`: hash of the identity modulo the bucket count. -/
def bucketIndex (pl : PeerList) (p : Peer) : Nat :=
  djb2 p.ident % pl.peerBuckets.length

/-- Total number of records stored across all buckets. -/
def totalPeers (pl : PeerList) : Nat := (pl.peerBuckets.map List.length).sum

/-- All records, in bucket order (used to talk about "the peers of the list"). -/
def allPeers (pl : PeerList) : List Peer := pl.peerBuckets.flatten

-- ----------------------------------------------------------------------
-- Go's sort.Search: binary search for the least index satisfying f.
-- The fuel is an upper bound on the loop iterations (the interval length);
-- sortSearch passes exactly n, which always suffices.
-- ----------------------------------------------------------------------

/-- The loop of Go's `sort.Search` on the interval `[i, j)`: narrow the
interval by halving until it is empty, keeping `f` false left of `i` and
true from `j` on.  One fuel unit is spent per iteration. -/
def goSearchF : Nat → (Nat → Bool) → Nat → Nat → Nat
  | 0, _, i, _ => i
  | fuel + 1, f, i, j =>
    if i < j then
      if f ((i + j) / 2) then goSearchF fuel f i ((i + j) / 2)
      else goSearchF fuel f ((i + j) / 2 + 1) j
    else i

/-- `sort.Search(n, f)`. -/
def sortSearch (n : Nat) (f : Nat → Bool) : Nat := goSearchF n f 0 n

/-- Characterization of the binary search on a predicate that is monotone on
`[i, j)`: the result `r` lies in `[i, j]`, everything below `r` is false and
`f r` holds when `r < j`. -/
theorem goSearchF_spec (f : Nat → Bool) :
    ∀ (fuel i j : Nat), i ≤ j → j - i ≤ fuel →
    (∀ k l, i ≤ k → k ≤ l → l < j → f k = true → f l = true) →
    i ≤ goSearchF fuel f i j ∧ goSearchF fuel f i j ≤ j ∧
      (∀ k, i ≤ k → k < goSearchF fuel f i j → f k = false) ∧
      (goSearchF fuel f i j < j → f (goSearchF fuel f i j) = true) := by
  intro fuel
  induction fuel with
  | zero =>
    intro i j hij hfuel _
    have hji : i = j := by omega
    subst hji
    simp only [goSearchF]
    exact ⟨Nat.le_refl _, Nat.le_refl _,
      fun k hk hki => absurd hki (by omega),
      fun hc => absurd hc (by omega)⟩
  | succ fuel ih =>
    intro i j hij hfuel hmono
    by_cases hlt : i < j
    · have hkey : goSearchF (fuel + 1) f i j =
          if f ((i + j) / 2) then goSearchF fuel f i ((i + j) / 2)
          else goSearchF fuel f ((i + j) / 2 + 1) j := by
        simp only [goSearchF]
        rw [if_pos hlt]
      rw [hkey]
      set h := (i + j) / 2 with hh
      have hhi : i ≤ h := by omega
      have hhj : h < j := by omega
      cases hf : f h with
      | true =>
        rw [if_pos rfl]
        have := ih i h hhi (by omega)
          (fun k l hk hkl hl hfk => hmono k l hk hkl (by omega) hfk)
        obtain ⟨h1, h2, h3, h4⟩ := this
        refine ⟨h1, by omega, h3, ?_⟩
        intro hr
        by_cases hrh : goSearchF fuel f i h < h
        · exact h4 hrh
        · have heq : goSearchF fuel f i h = h := by omega
          rw [heq]; exact hf
      | false =>
        rw [if_neg (by simp)]
        have := ih (h + 1) j (by omega) (by omega)
          (fun k l hk hkl hl hfk => hmono k l (by omega) hkl hl hfk)
        obtain ⟨h1, h2, h3, h4⟩ := this
        refine ⟨by omega, h2, ?_, h4⟩
        intro k hk hkr
        by_cases hkh : h + 1 ≤ k
        · exact h3 k hkh hkr
        · -- k ≤ h; if f k were true then by monotonicity f h would be true
          cases hfk : f k with
          | true => exact absurd (hmono k h hk (by omega) hhj hfk) (by simp [hf])
          | false => rfl
    · have hkey : goSearchF (fuel + 1) f i j = i := by
        simp only [goSearchF]
        rw [if_neg hlt]
      rw [hkey]
      exact ⟨Nat.le_refl _, hij,
        fun k hk hki => absurd hki (by omega),
        fun hc => absurd hc hlt⟩

-- ----------------------------------------------------------------------
-- putPeer / removePeer (peer_list.go)
-- ----------------------------------------------------------------------

/-- `binarySearchFunc`: `bytes.Compare(p[:18], b[i][:18]) <= 0`. -/
def binarySearchFunc (p : Peer) (b : Bucket) (i : Nat) : Bool :=
  bytesCompare p.ident (getP b i).ident != .gt

/-- `(*peerList).putPeer`: upsert by the 18-byte identity into the hash
bucket, binary-searching for the sorted position. -/
def PeerList.putPeer (pl : PeerList) (p : Peer) : PeerList :=
  let idx := bucketIndex pl p
  let b := pl.peerBuckets.getD idx []
  let m := sortSearch b.length (binarySearchFunc p b)
  if b.length ≤ m ∨ p.ident ≠ (getP b m).ident then
    -- create new and insert
    { pl with
      peerBuckets := pl.peerBuckets.set idx (b.take m ++ p :: b.drop m)
      numPeers := pl.numPeers + 1
      numSeeders := if p.isSeeder then pl.numSeeders + 1 else pl.numSeeders }
  else
    -- update existing, adjusting the seeder count on role transition
    { pl with
      peerBuckets := pl.peerBuckets.set idx (b.set m p)
      numSeeders :=
        if (getP b m).isLeecher ∧ p.isSeeder then pl.numSeeders + 1
        else if (getP b m).isSeeder ∧ p.isLeecher then pl.numSeeders - 1
        else pl.numSeeders }

/-- `(*peerList).removePeer`: binary-search the hash bucket; a hit requires
an exact flag match and identity equality; on a hit shift the tail left and
decrement the counters. -/
def PeerList.removePeer (pl : PeerList) (p : Peer) : PeerList × Bool :=
  let idx := bucketIndex pl p
  let b := pl.peerBuckets.getD idx []
  let m := sortSearch b.length (binarySearchFunc p b)
  if b.length ≤ m ∨ (getP b m).flag ≠ p.flag ∨ p.ident ≠ (getP b m).ident then
    (pl, false)
  else
    ({ pl with
        numPeers := pl.numPeers - 1
        numSeeders := if (getP b m).isSeeder then pl.numSeeders - 1 else pl.numSeeders
        peerBuckets := pl.peerBuckets.set idx (b.take m ++ b.drop (m + 1)) },
      true)

-- ----------------------------------------------------------------------
-- Well-formedness of a peer list (§3 invariants of the spec, all of which
-- the Go code maintains): at least one bucket, each bucket strictly sorted
-- by identity, records hash to their bucket, 16-bit timestamps, a role
-- flag that is exactly seeder or leecher, and correct counters.
-- ----------------------------------------------------------------------

/-- Strict identity order between records. -/
def identLt (a b : Peer) : Prop := bytesCompare a.ident b.ident = .lt

instance (a b : Peer) : Decidable (identLt a b) := by
  unfold identLt; infer_instance

/-- Well-formedness of a `peerList`. -/
def WF (pl : PeerList) : Prop :=
  0 < pl.peerBuckets.length ∧
  (∀ b ∈ pl.peerBuckets, List.Pairwise identLt b) ∧
  (∀ i, i < pl.peerBuckets.length →
    ∀ q ∈ pl.peerBuckets.getD i [], djb2 q.ident % pl.peerBuckets.length = i) ∧
  (∀ b ∈ pl.peerBuckets, ∀ q ∈ b,
    q.time < 2 ^ 16 ∧ (q.flag = peerFlagSeeder ∨ q.flag = peerFlagLeecher)) ∧
  pl.numPeers = (totalPeers pl : Int) ∧
  pl.numSeeders = ((allPeers pl).countP (·.isSeeder) : Int)

instance (pl : PeerList) : Decidable (WF pl) := by
  unfold WF; infer_instance

-- ----------------------------------------------------------------------
-- Behaviour of the binary search on a sorted bucket
-- ----------------------------------------------------------------------

theorem sorted_get_lt {b : Bucket} (hs : List.Pairwise identLt b) {i j : Nat}
    (hij : i < j) (hj : j < b.length) :
    bytesCompare (getP b i).ident (getP b j).ident = .lt := by
  have hi : i < b.length := Nat.lt_trans hij hj
  have := List.pairwise_iff_get.mp hs ⟨i, hi⟩ ⟨j, hj⟩ hij
  simpa [identLt, getP, List.getD_eq_getElem?_getD, List.getElem?_eq_getElem, hi, hj,
    List.get_eq_getElem] using this

theorem binarySearchFunc_true {p : Peer} {b : Bucket} {i : Nat} :
    binarySearchFunc p b i = true ↔ bytesCompare p.ident (getP b i).ident ≠ .gt := by
  cases h : bytesCompare p.ident (getP b i).ident <;> simp only [binarySearchFunc, h] <;> decide

theorem binarySearchFunc_false {p : Peer} {b : Bucket} {i : Nat} :
    binarySearchFunc p b i = false ↔ bytesCompare p.ident (getP b i).ident = .gt := by
  cases h : bytesCompare p.ident (getP b i).ident <;> simp only [binarySearchFunc, h] <;> decide

theorem goSearchF_le (f : Nat → Bool) :
    ∀ (fuel i j : Nat), i ≤ j → goSearchF fuel f i j ≤ j := by
  intro fuel
  induction fuel with
  | zero => intro i j hij; simpa [goSearchF] using hij
  | succ fuel ih =>
    intro i j hij
    simp only [goSearchF]
    by_cases hlt : i < j
    · rw [if_pos hlt]
      by_cases hf : f ((i + j) / 2) = true
      · rw [if_pos hf]
        exact Nat.le_trans (ih i ((i + j) / 2) (by omega)) (by omega)
      · rw [if_neg hf]
        exact ih ((i + j) / 2 + 1) j (by omega)
    · rw [if_neg hlt]; exact hij

theorem search_le_length (p : Peer) (b : Bucket) :
    sortSearch b.length (binarySearchFunc p b) ≤ b.length :=
  goSearchF_le _ _ _ _ (Nat.zero_le _)

/-- On a sorted bucket the search predicate is monotone, so the search
returns the least index whose identity is ≥ the probe. -/
theorem search_spec (p : Peer) (b : Bucket) (hs : List.Pairwise identLt b) :
    sortSearch b.length (binarySearchFunc p b) ≤ b.length ∧
    (∀ k, k < sortSearch b.length (binarySearchFunc p b) →
      bytesCompare (getP b k).ident p.ident = .lt) ∧
    (sortSearch b.length (binarySearchFunc p b) < b.length →
      bytesCompare p.ident (getP b (sortSearch b.length (binarySearchFunc p b))).ident ≠ .gt) := by
  have hmono : ∀ k l, 0 ≤ k → k ≤ l → l < b.length →
      binarySearchFunc p b k = true → binarySearchFunc p b l = true := by
    intro k l _ hkl hl hfk
    rcases Nat.eq_or_lt_of_le hkl with heq | hlt
    · subst heq; exact hfk
    · have hbl : bytesCompare (getP b k).ident (getP b l).ident = .lt :=
        sorted_get_lt hs hlt hl
      have hle : bytesCompare p.ident (getP b k).ident ≠ .gt :=
        binarySearchFunc_true.mp hfk
      exact binarySearchFunc_true.mpr
        (bytesCompare_lt_ne_gt (bytesCompare_le_lt_trans hle hbl))
  have h := goSearchF_spec (binarySearchFunc p b) b.length 0 b.length
    (Nat.zero_le _) (by omega) hmono
  obtain ⟨_, h2, h3, h4⟩ := h
  refine ⟨h2, ?_, ?_⟩
  · intro k hk
    have hgt : bytesCompare p.ident (getP b k).ident = .gt :=
      binarySearchFunc_false.mp (h3 k (Nat.zero_le _) hk)
    exact bytesCompare_swap.mpr hgt
  · intro hlt
    exact binarySearchFunc_true.mp (h4 hlt)

/-- If the (sorted) bucket holds a record with the probe's identity at
index `k`, the binary search returns exactly `k`. -/
theorem search_found (p : Peer) (b : Bucket) (hs : List.Pairwise identLt b)
    {k : Nat} (hk : k < b.length) (hid : (getP b k).ident = p.ident) :
    sortSearch b.length (binarySearchFunc p b) = k := by
  obtain ⟨hle, hbelow, hat⟩ := search_spec p b hs
  set m := sortSearch b.length (binarySearchFunc p b) with hm
  have hmk : m ≤ k := by
    by_contra hgt
    have := hbelow k (by omega)
    rw [hid, bytesCompare_self] at this
    cases this
  rcases Nat.eq_or_lt_of_le hmk with heq | hlt
  · omega
  · exfalso
    have hmlen : m < b.length := by omega
    have h1 := hat hmlen
    have h2 : bytesCompare (getP b m).ident (getP b k).ident = .lt :=
      sorted_get_lt hs hlt hk
    have h3 : bytesCompare p.ident (getP b k).ident = .lt :=
      bytesCompare_le_lt_trans h1 h2
    rw [hid, bytesCompare_self] at h3
    cases h3

-- ----------------------------------------------------------------------
-- Helper lemmas: bucket access and membership under well-formedness
-- ----------------------------------------------------------------------

/-- The bucket the Go code selects for `p` (`pl.peerBuckets[pl.bucketIndex(p)]`). -/
def hashBucket (pl : PeerList) (p : Peer) : Bucket :=
  pl.peerBuckets.getD (bucketIndex pl p) []

theorem bucketIndex_lt {pl : PeerList} (p : Peer) (hpos : 0 < pl.peerBuckets.length) :
    bucketIndex pl p < pl.peerBuckets.length :=
  Nat.mod_lt _ hpos

theorem getP_eq_getElem {b : Bucket} {k : Nat} (hk : k < b.length) :
    getP b k = b[k] := by
  simp [getP, List.getD_eq_getElem?_getD, List.getElem?_eq_getElem, hk]

theorem getP_mem {b : Bucket} {k : Nat} (hk : k < b.length) : getP b k ∈ b := by
  rw [getP_eq_getElem hk]
  exact List.getElem_mem hk

theorem mem_getP {b : Bucket} {q : Peer} (h : q ∈ b) :
    ∃ k, k < b.length ∧ getP b k = q := by
  obtain ⟨k, hk, hq⟩ := List.mem_iff_getElem.mp h
  exact ⟨k, hk, by rw [getP_eq_getElem hk, hq]⟩

theorem hashBucket_mem {pl : PeerList} (p : Peer) (hpos : 0 < pl.peerBuckets.length) :
    hashBucket pl p ∈ pl.peerBuckets := by
  unfold hashBucket
  have h := bucketIndex_lt p hpos
  rw [List.getD_eq_getElem?_getD, List.getElem?_eq_getElem h]
  exact List.getElem_mem h

theorem WF_hashBucket_sorted {pl : PeerList} (hwf : WF pl) (p : Peer) :
    List.Pairwise identLt (hashBucket pl p) :=
  hwf.2.1 _ (hashBucket_mem p hwf.1)

theorem mem_allPeers_of_mem_hashBucket {pl : PeerList} {p q : Peer}
    (hpos : 0 < pl.peerBuckets.length) (hq : q ∈ hashBucket pl p) :
    q ∈ allPeers pl :=
  List.mem_flatten.mpr ⟨hashBucket pl p, hashBucket_mem p hpos, hq⟩

/-- Under well-formedness, a record whose identity equals `p`'s lives in
`p`'s hash bucket. -/
theorem mem_hashBucket_of_ident {pl : PeerList} {p q : Peer} (hwf : WF pl)
    (hq : q ∈ allPeers pl) (hid : q.ident = p.ident) :
    q ∈ hashBucket pl p := by
  obtain ⟨b, hb, hqb⟩ := List.mem_flatten.mp hq
  obtain ⟨i, hi, hbi⟩ := List.mem_iff_getElem.mp hb
  have hgetd : pl.peerBuckets.getD i [] = b := by
    rw [List.getD_eq_getElem?_getD, List.getElem?_eq_getElem hi, hbi]
    rfl
  have hhash := hwf.2.2.1 i hi q (by rw [hgetd]; exact hqb)
  have : bucketIndex pl p = i := by
    unfold bucketIndex
    rw [← hid, hhash]
  unfold hashBucket
  rw [this, hgetd]
  exact hqb

-- ----------------------------------------------------------------------
-- Case analysis of putPeer and removePeer on a well-formed list
-- ----------------------------------------------------------------------

theorem hashBucket_def (pl : PeerList) (p : Peer) :
    pl.peerBuckets.getD (bucketIndex pl p) [] = hashBucket pl p := rfl

/-- `putPeer` when a record with `p`'s identity sits at index `k` of the
hash bucket: the record is overwritten in place, `numPeers` is untouched,
`numSeeders` adjusted on a role transition. -/
theorem putPeer_update (pl : PeerList) (p : Peer)
    (hsorted : List.Pairwise identLt (hashBucket pl p))
    {k : Nat} (hk : k < (hashBucket pl p).length)
    (hid : (getP (hashBucket pl p) k).ident = p.ident) :
    pl.putPeer p = { pl with
      peerBuckets := pl.peerBuckets.set (bucketIndex pl p) ((hashBucket pl p).set k p)
      numSeeders :=
        if (getP (hashBucket pl p) k).isLeecher ∧ p.isSeeder then pl.numSeeders + 1
        else if (getP (hashBucket pl p) k).isSeeder ∧ p.isLeecher then pl.numSeeders - 1
        else pl.numSeeders } := by
  have hm := search_found p (hashBucket pl p) hsorted hk hid
  simp only [PeerList.putPeer, hashBucket_def, hm]
  have hcond : ¬((hashBucket pl p).length ≤ k ∨ p.ident ≠ (getP (hashBucket pl p) k).ident) := by
    push_neg
    exact ⟨hk, hid.symm⟩
  rw [if_neg hcond]

/-- `putPeer` when no record with `p`'s identity is in the hash bucket:
`p` is inserted at the search position, `numPeers` incremented, and
`numSeeders` incremented iff `p` is a seeder. -/
theorem putPeer_insert (pl : PeerList) (p : Peer)
    (habs : ∀ q ∈ hashBucket pl p, q.ident ≠ p.ident) :
    pl.putPeer p = { pl with
      peerBuckets := pl.peerBuckets.set (bucketIndex pl p)
        ((hashBucket pl p).take
            (sortSearch (hashBucket pl p).length (binarySearchFunc p (hashBucket pl p)))
          ++ p ::
          (hashBucket pl p).drop
            (sortSearch (hashBucket pl p).length (binarySearchFunc p (hashBucket pl p))))
      numPeers := pl.numPeers + 1
      numSeeders := if p.isSeeder then pl.numSeeders + 1 else pl.numSeeders } := by
  simp only [PeerList.putPeer, hashBucket_def]
  have hcond : (hashBucket pl p).length ≤
        sortSearch (hashBucket pl p).length (binarySearchFunc p (hashBucket pl p)) ∨
      p.ident ≠ (getP (hashBucket pl p)
        (sortSearch (hashBucket pl p).length (binarySearchFunc p (hashBucket pl p)))).ident := by
    rcases Nat.lt_or_ge
        (sortSearch (hashBucket pl p).length (binarySearchFunc p (hashBucket pl p)))
        (hashBucket pl p).length with hlt | hge
    · exact Or.inr (fun heq => habs _ (getP_mem hlt) heq.symm)
    · exact Or.inl hge
  rw [if_pos hcond]

/-- The search position of an insert is the sorted position: everything
before it is strictly below `p`, everything from it on strictly above. -/
theorem insert_position_sorted (pl : PeerList) (p : Peer)
    (hsorted : List.Pairwise identLt (hashBucket pl p))
    (habs : ∀ q ∈ hashBucket pl p, q.ident ≠ p.ident) :
    (∀ k, k < sortSearch (hashBucket pl p).length (binarySearchFunc p (hashBucket pl p)) →
      identLt (getP (hashBucket pl p) k) p) ∧
    (∀ k, sortSearch (hashBucket pl p).length (binarySearchFunc p (hashBucket pl p)) ≤ k →
      k < (hashBucket pl p).length → identLt p (getP (hashBucket pl p) k)) := by
  obtain ⟨hle, hbelow, hat⟩ := search_spec p (hashBucket pl p) hsorted
  set b := hashBucket pl p
  set m := sortSearch b.length (binarySearchFunc p b) with hm
  refine ⟨hbelow, ?_⟩
  intro k hmk hk
  have hmlen : m < b.length := by omega
  have h1 : bytesCompare p.ident (getP b m).ident ≠ .gt := hat hmlen
  have h2 : bytesCompare p.ident (getP b m).ident ≠ .eq := by
    intro heq
    exact habs _ (getP_mem hmlen) (bytesCompare_eq_iff.mp heq).symm
  have hpm : identLt p (getP b m) := by
    unfold identLt
    cases hc : bytesCompare p.ident (getP b m).ident with
    | lt => rfl
    | eq => exact absurd hc h2
    | gt => exact absurd hc h1
  rcases Nat.eq_or_lt_of_le hmk with heq | hlt
  · rwa [← heq]
  · exact bytesCompare_lt_trans hpm (sorted_get_lt hsorted hlt hk)

/-- `removePeer` on a hit with the matching flag: the record at index `k`
of the hash bucket is removed, counters decremented. -/
theorem removePeer_match (pl : PeerList) (p : Peer)
    (hsorted : List.Pairwise identLt (hashBucket pl p))
    {k : Nat} (hk : k < (hashBucket pl p).length)
    (hid : (getP (hashBucket pl p) k).ident = p.ident)
    (hflag : (getP (hashBucket pl p) k).flag = p.flag) :
    pl.removePeer p = ({ pl with
      numPeers := pl.numPeers - 1
      numSeeders :=
        if (getP (hashBucket pl p) k).isSeeder then pl.numSeeders - 1 else pl.numSeeders
      peerBuckets := pl.peerBuckets.set (bucketIndex pl p)
        ((hashBucket pl p).take k ++ (hashBucket pl p).drop (k + 1)) },
      true) := by
  have hm := search_found p (hashBucket pl p) hsorted hk hid
  simp only [PeerList.removePeer, hashBucket_def, hm]
  have hcond : ¬((hashBucket pl p).length ≤ k ∨ (getP (hashBucket pl p) k).flag ≠ p.flag ∨
      p.ident ≠ (getP (hashBucket pl p) k).ident) := by
    push_neg
    exact ⟨hk, hflag, hid.symm⟩
  rw [if_neg hcond]

/-- `removePeer` on an identity hit with the wrong flag: not found, the
list is returned unchanged. -/
theorem removePeer_wrongFlag (pl : PeerList) (p : Peer)
    (hsorted : List.Pairwise identLt (hashBucket pl p))
    {k : Nat} (hk : k < (hashBucket pl p).length)
    (hid : (getP (hashBucket pl p) k).ident = p.ident)
    (hflag : (getP (hashBucket pl p) k).flag ≠ p.flag) :
    pl.removePeer p = (pl, false) := by
  have hm := search_found p (hashBucket pl p) hsorted hk hid
  simp only [PeerList.removePeer, hashBucket_def, hm]
  rw [if_pos (Or.inr (Or.inl hflag))]

/-- `removePeer` when no record with `p`'s identity is in the hash bucket. -/
theorem removePeer_absent (pl : PeerList) (p : Peer)
    (habs : ∀ q ∈ hashBucket pl p, q.ident ≠ p.ident) :
    pl.removePeer p = (pl, false) := by
  simp only [PeerList.removePeer, hashBucket_def]
  have hcond : (hashBucket pl p).length ≤
        sortSearch (hashBucket pl p).length (binarySearchFunc p (hashBucket pl p)) ∨
      (getP (hashBucket pl p)
        (sortSearch (hashBucket pl p).length (binarySearchFunc p (hashBucket pl p)))).flag
        ≠ p.flag ∨
      p.ident ≠ (getP (hashBucket pl p)
        (sortSearch (hashBucket pl p).length (binarySearchFunc p (hashBucket pl p)))).ident := by
    rcases Nat.lt_or_ge
        (sortSearch (hashBucket pl p).length (binarySearchFunc p (hashBucket pl p)))
        (hashBucket pl p).length with hlt | hge
    · exact Or.inr (Or.inr (fun heq => habs _ (getP_mem hlt) heq.symm))
    · exact Or.inl hge
  rw [if_pos hcond]

-- ----------------------------------------------------------------------
-- C1: put upsert semantics
-- ----------------------------------------------------------------------

/-- C1: for every (well-formed) peer list and record `p` given to `putPeer`:
if a record `q` with the same 18-byte identity is present, put leaves
`numPeers` unchanged (only `peerBuckets`/`numSeeders` are rewritten: the
stored record is overwritten by `p`, so its flag and timestamp become `p`'s),
and `numSeeders` changes by +1 on a leecher→seeder transition, −1 on a
seeder→leecher transition, and 0 otherwise; if no record with that identity
is present, put inserts `p` at the sorted position of its hash bucket
(everything before the position is strictly below `p`, everything after
strictly above), increments `numPeers` by 1 and increments `numSeeders`
iff `p` is a seeder. -/
theorem putPeer_correct (pl : PeerList) (p : Peer) (hwf : WF pl) :
    (∀ q, q ∈ allPeers pl → q.ident = p.ident →
      ∃ k, k < (hashBucket pl p).length ∧ getP (hashBucket pl p) k = q ∧
        pl.putPeer p = { pl with
          peerBuckets := pl.peerBuckets.set (bucketIndex pl p) ((hashBucket pl p).set k p)
          numSeeders :=
            if q.isLeecher ∧ p.isSeeder then pl.numSeeders + 1
            else if q.isSeeder ∧ p.isLeecher then pl.numSeeders - 1
            else pl.numSeeders }) ∧
    ((∀ q, q ∈ allPeers pl → q.ident ≠ p.ident) →
      pl.putPeer p = { pl with
        peerBuckets := pl.peerBuckets.set (bucketIndex pl p)
          ((hashBucket pl p).take
              (sortSearch (hashBucket pl p).length (binarySearchFunc p (hashBucket pl p)))
            ++ p ::
            (hashBucket pl p).drop
              (sortSearch (hashBucket pl p).length (binarySearchFunc p (hashBucket pl p))))
        numPeers := pl.numPeers + 1
        numSeeders := if p.isSeeder then pl.numSeeders + 1 else pl.numSeeders } ∧
      (∀ k, k < sortSearch (hashBucket pl p).length (binarySearchFunc p (hashBucket pl p)) →
        identLt (getP (hashBucket pl p) k) p) ∧
      (∀ k, sortSearch (hashBucket pl p).length (binarySearchFunc p (hashBucket pl p)) ≤ k →
        k < (hashBucket pl p).length → identLt p (getP (hashBucket pl p) k))) := by
  constructor
  · intro q hq hid
    have hqb : q ∈ hashBucket pl p := mem_hashBucket_of_ident hwf hq hid
    obtain ⟨k, hk, hgk⟩ := mem_getP hqb
    refine ⟨k, hk, hgk, ?_⟩
    have := putPeer_update pl p (WF_hashBucket_sorted hwf p) hk (by rw [hgk, hid])
    rw [this, hgk]
  · intro habs
    have habs' : ∀ q ∈ hashBucket pl p, q.ident ≠ p.ident :=
      fun q hq => habs q (mem_allPeers_of_mem_hashBucket hwf.1 hq)
    exact ⟨putPeer_insert pl p habs',
      insert_position_sorted pl p (WF_hashBucket_sorted hwf p) habs'⟩

/-- A one-bucket list holding a single leecher record. -/
def plC1 : PeerList := ⟨0, 1, 0, [[⟨List.replicate 18 1, 2, 5⟩]]⟩

/-- A seeder record with the same identity and a newer timestamp. -/
def pC1 : Peer := ⟨List.replicate 18 1, 1, 9⟩

theorem putPeer_correct_witness : WF plC1 ∧
    ((∀ q, q ∈ allPeers plC1 → q.ident = pC1.ident →
      ∃ k, k < (hashBucket plC1 pC1).length ∧ getP (hashBucket plC1 pC1) k = q ∧
        plC1.putPeer pC1 = { plC1 with
          peerBuckets :=
            plC1.peerBuckets.set (bucketIndex plC1 pC1) ((hashBucket plC1 pC1).set k pC1)
          numSeeders :=
            if q.isLeecher ∧ pC1.isSeeder then plC1.numSeeders + 1
            else if q.isSeeder ∧ pC1.isLeecher then plC1.numSeeders - 1
            else plC1.numSeeders }) ∧
    ((∀ q, q ∈ allPeers plC1 → q.ident ≠ pC1.ident) →
      plC1.putPeer pC1 = { plC1 with
        peerBuckets := plC1.peerBuckets.set (bucketIndex plC1 pC1)
          ((hashBucket plC1 pC1).take
              (sortSearch (hashBucket plC1 pC1).length (binarySearchFunc pC1 (hashBucket plC1 pC1)))
            ++ pC1 ::
            (hashBucket plC1 pC1).drop
              (sortSearch (hashBucket plC1 pC1).length (binarySearchFunc pC1 (hashBucket plC1 pC1))))
        numPeers := plC1.numPeers + 1
        numSeeders := if pC1.isSeeder then plC1.numSeeders + 1 else plC1.numSeeders } ∧
      (∀ k, k < sortSearch (hashBucket plC1 pC1).length (binarySearchFunc pC1 (hashBucket plC1 pC1)) →
        identLt (getP (hashBucket plC1 pC1) k) pC1) ∧
      (∀ k, sortSearch (hashBucket plC1 pC1).length (binarySearchFunc pC1 (hashBucket plC1 pC1)) ≤ k →
        k < (hashBucket plC1 pC1).length → identLt pC1 (getP (hashBucket plC1 pC1) k)))) :=
  ⟨by decide, putPeer_correct plC1 pC1 (by decide)⟩

-- ----------------------------------------------------------------------
-- Garbage collection (peer_list.go collectGarbage)
-- ----------------------------------------------------------------------

/-- The staleness test of `(*peerList).collectGarbage` on 16-bit values:
equal to the cutoff, or older than it by more than `maxDiff` accounting
for `uint16` wrap-around. -/
def stale (cutoffTime maxDiff t : Nat) : Bool :=
  if t = cutoffTime then true
  else if t < cutoffTime then
    decide (65535 - (cutoffTime - t) > maxDiff)
  else decide (t - cutoffTime > maxDiff)

/-- Staleness of a record. -/
def staleP (c m : Nat) (q : Peer) : Bool := stale c m q.time

/-- The inner loop of `collectGarbage` over bucket `j` starting at index
`i` (`gc` accumulates whether anything was removed).  A stale record is
removed through `removePeer` and the index is revisited; if `removePeer`
misses, the Go code panics (`none` here).  One fuel unit per iteration;
`bucket length - i + 1` always suffices. -/
def gcBucketF : Nat → Nat → Nat → PeerList → Nat → Nat → Bool → Option (PeerList × Bool)
  | 0, _, _, _, _, _, _ => none
  | fuel + 1, c, m, pl, j, i, g =>
    if i < (pl.peerBuckets.getD j []).length then
      if staleP c m (getP (pl.peerBuckets.getD j []) i) then
        match pl.removePeer (getP (pl.peerBuckets.getD j []) i) with
        | (pl2, true) => gcBucketF fuel c m pl2 j i true
        | (_, false) => none
      else gcBucketF fuel c m pl j (i + 1) g
    else some (pl, g)

/-- The outer loop of `collectGarbage` over the bucket indices. -/
def gcLoopF : Nat → Nat → Nat → PeerList → Nat → Bool → Option (PeerList × Bool)
  | 0, _, _, _, _, _ => none
  | fuel + 1, c, m, pl, j, g =>
    if j < pl.peerBuckets.length then
      match gcBucketF ((pl.peerBuckets.getD j []).length + 1) c m pl j 0 g with
      | none => none
      | some (pl2, g2) => gcLoopF fuel c m pl2 (j + 1) g2
    else some (pl, g)

/-- `(*peerList).collectGarbage(cutoffTime, maxDiff)`: remove every stale
record, returning whether at least one was removed. -/
def PeerList.collectGarbage (pl : PeerList) (c m : Nat) : Option (PeerList × Bool) :=
  gcLoopF (pl.peerBuckets.length + 1) c m pl 0 false

-- ----------------------------------------------------------------------
-- List bookkeeping helpers
-- ----------------------------------------------------------------------

theorem getD_set_self {l : List Bucket} {j : Nat} (v : Bucket) (h : j < l.length) :
    (l.set j v).getD j [] = v := by
  rw [List.getD_eq_getElem?_getD, List.getElem?_set_self (by omega)]
  rfl

theorem getD_set_ne {l : List Bucket} {j j' : Nat} (v : Bucket) (h : j ≠ j') :
    (l.set j v).getD j' [] = l.getD j' [] := by
  rw [List.getD_eq_getElem?_getD, List.getElem?_set_ne h, ← List.getD_eq_getElem?_getD]

theorem sum_map_length_set (l : List Bucket) (j : Nat) (v : Bucket) (hj : j < l.length) :
    ((l.set j v).map List.length).sum + (l.getD j []).length
      = (l.map List.length).sum + v.length := by
  induction l generalizing j with
  | nil => simp at hj
  | cons b rest ih =>
    cases j with
    | zero => simp [List.set, List.getD]; omega
    | succ j =>
      have hj' : j < rest.length := by simpa using hj
      have := ih j hj'
      simp only [List.set, List.map, List.sum_cons, List.getD_cons_succ]
      omega

theorem countP_flatten_set (l : List Bucket) (j : Nat) (v : Bucket) (f : Peer → Bool)
    (hj : j < l.length) :
    ((l.set j v).flatten.countP f) + ((l.getD j []).countP f)
      = (l.flatten.countP f) + (v.countP f) := by
  induction l generalizing j with
  | nil => simp at hj
  | cons b rest ih =>
    cases j with
    | zero =>
      simp only [List.set, List.flatten_cons, List.countP_append, List.getD_cons_zero]
      omega
    | succ j =>
      have hj' : j < rest.length := by simpa using hj
      have := ih j hj'
      simp only [List.set, List.flatten_cons, List.countP_append, List.getD_cons_succ]
      omega

theorem set_getD_self {l : List Bucket} {j : Nat} (hj : j < l.length) :
    l.set j (l.getD j []) = l := by
  apply List.ext_getElem
  · simp
  · intro n hn _
    rw [List.getElem_set]
    split
    · next heq =>
      subst heq
      rw [List.getD_eq_getElem?_getD, List.getElem?_eq_getElem hj]
      rfl
    · rfl

theorem getD_mem_of_lt {l : List Bucket} {j : Nat} (hj : j < l.length) :
    l.getD j [] ∈ l := by
  rw [List.getD_eq_getElem?_getD, List.getElem?_eq_getElem hj]
  exact List.getElem_mem hj

/-- `removePeer` applied to the record at index `i` of bucket `j` of a
well-formed list removes exactly that record. -/
theorem removePeer_at (pl : PeerList) {j i : Nat} (hwf : WF pl)
    (hj : j < pl.peerBuckets.length) (hi : i < (pl.peerBuckets.getD j []).length) :
    pl.removePeer (getP (pl.peerBuckets.getD j []) i) =
      ({ pl with
          numPeers := pl.numPeers - 1
          numSeeders := if (getP (pl.peerBuckets.getD j []) i).isSeeder
            then pl.numSeeders - 1 else pl.numSeeders
          peerBuckets := pl.peerBuckets.set j
            ((pl.peerBuckets.getD j []).take i ++ (pl.peerBuckets.getD j []).drop (i + 1)) },
        true) := by
  have hqmem : getP (pl.peerBuckets.getD j []) i ∈ pl.peerBuckets.getD j [] := getP_mem hi
  have hidx : bucketIndex pl (getP (pl.peerBuckets.getD j []) i) = j := by
    unfold bucketIndex
    exact hwf.2.2.1 j hj _ hqmem
  have hhb : hashBucket pl (getP (pl.peerBuckets.getD j []) i) = pl.peerBuckets.getD j [] := by
    unfold hashBucket
    rw [hidx]
  have h := removePeer_match pl (getP (pl.peerBuckets.getD j []) i)
    (WF_hashBucket_sorted hwf _) (k := i) (by rw [hhb]; exact hi) (by rw [hhb]) (by rw [hhb])
  rw [hhb, hidx] at h
  exact h

/-- Removing the record at index `i` of bucket `j` preserves well-formedness. -/
theorem remove_at_WF (pl : PeerList) {j i : Nat} (hwf : WF pl)
    (hj : j < pl.peerBuckets.length) (hi : i < (pl.peerBuckets.getD j []).length) :
    WF { pl with
      numPeers := pl.numPeers - 1
      numSeeders := if (getP (pl.peerBuckets.getD j []) i).isSeeder
        then pl.numSeeders - 1 else pl.numSeeders
      peerBuckets := pl.peerBuckets.set j
        ((pl.peerBuckets.getD j []).take i ++ (pl.peerBuckets.getD j []).drop (i + 1)) } := by
  obtain ⟨hpos, hsorted, hhash, hflags, hnum, hseed⟩ := hwf
  set b := pl.peerBuckets.getD j [] with hb
  set q := getP b i with hq
  set b2 : Bucket := b.take i ++ b.drop (i + 1) with hb2
  have hdt : b.drop (i + 1) = (b.drop i).tail := by
    rw [← List.drop_one, List.drop_drop]
  have h1 : (b.drop (i + 1)).Sublist (b.drop i) := by
    rw [hdt]
    exact List.tail_sublist _
  have hsub : b2.Sublist b := by
    have h2 := h1.append_left (b.take i)
    rw [List.take_append_drop] at h2
    exact h2
  have hlen2 : b2.length + 1 = b.length := by
    simp only [hb2, List.length_append, List.length_take, List.length_drop]
    omega
  have hbsplit : b = b.take i ++ q :: b.drop (i + 1) := by
    conv_lhs => rw [← List.take_append_drop i b]
    rw [List.drop_eq_getElem_cons hi, ← getP_eq_getElem hi]
  refine ⟨by simpa using hpos, ?_, ?_, ?_, ?_, ?_⟩
  · intro b' hb'
    rcases List.mem_or_eq_of_mem_set hb' with hmem | heq
    · exact hsorted b' hmem
    · subst heq
      exact (hsorted b (getD_mem_of_lt hj)).sublist hsub
  · intro i' hi' p hp
    simp only [List.length_set] at hi'
    by_cases hij : j = i'
    · subst hij
      rw [getD_set_self _ hj] at hp
      have hpb : p ∈ b := hsub.subset hp
      simpa using hhash j hj p hpb
    · rw [getD_set_ne _ hij] at hp
      simpa using hhash i' hi' p hp
  · intro b' hb' p hp
    rcases List.mem_or_eq_of_mem_set hb' with hmem | heq
    · exact hflags b' hmem p hp
    · subst heq
      exact hflags b (getD_mem_of_lt hj) p (hsub.subset hp)
  · have := sum_map_length_set pl.peerBuckets j b2 hj
    simp only [totalPeers] at hnum ⊢
    rw [← hb] at this
    omega
  · have hcnt := countP_flatten_set pl.peerBuckets j b2 (·.isSeeder) hj
    rw [← hb] at hcnt
    have hcntb : b.countP (·.isSeeder) =
        b2.countP (·.isSeeder) + (if q.isSeeder then 1 else 0) := by
      conv_lhs => rw [hbsplit]
      simp only [hb2, List.countP_append, List.countP_cons]
      by_cases hqs : q.isSeeder
      · simp only [hqs, if_true]
        omega
      · simp only [hqs, if_false]
        omega
    simp only [allPeers] at hseed ⊢
    cases hqs : q.isSeeder with
    | true =>
      rw [hqs, if_pos rfl] at hcntb
      rw [if_pos rfl]
      omega
    | false =>
      rw [hqs, if_neg (by simp)] at hcntb
      rw [if_neg (by simp)]
      omega

/-- Full characterization of one bucket pass of the garbage collector on a
well-formed list: starting at index `i` of bucket `j`, exactly the stale
records of the remainder of the bucket are removed (the prefix up to `i` is
kept), counters are decremented accordingly, the `gc` flag records whether
anything was removed, and well-formedness is preserved. -/
theorem gcBucketF_spec :
    ∀ (fuel c m : Nat) (pl : PeerList) (j i : Nat) (g : Bool),
    WF pl → j < pl.peerBuckets.length → i ≤ (pl.peerBuckets.getD j []).length →
    (pl.peerBuckets.getD j []).length - i < fuel →
    ∃ pl2,
      gcBucketF fuel c m pl j i g =
        some (pl2, g || ((pl.peerBuckets.getD j []).drop i).any (staleP c m)) ∧
      pl2 = { pl with
        numPeers := pl.numPeers - (((pl.peerBuckets.getD j []).drop i).countP (staleP c m) : Int)
        numSeeders := pl.numSeeders -
          ((((pl.peerBuckets.getD j []).drop i).filter (staleP c m)).countP (·.isSeeder) : Int)
        peerBuckets := pl.peerBuckets.set j
          ((pl.peerBuckets.getD j []).take i ++
            ((pl.peerBuckets.getD j []).drop i).filter (fun q => !staleP c m q)) } ∧
      WF pl2 := by
  intro fuel
  induction fuel with
  | zero =>
    intro c m pl j i g _ _ _ hfuel
    omega
  | succ fuel ih =>
    intro c m pl j i g hwf hj hi hfuel
    by_cases hlt : i < (pl.peerBuckets.getD j []).length
    · -- bucket not yet exhausted
      have hrm := removePeer_at pl hwf hj hlt
      have hwfrm := remove_at_WF pl hwf hj hlt
      set b := pl.peerBuckets.getD j [] with hb
      set q := getP b i with hq
      have hdsplit : b.drop i = q :: b.drop (i + 1) := by
        rw [List.drop_eq_getElem_cons hlt, ← getP_eq_getElem hlt]
      have htklen : (b.take i).length = i := by
        rw [List.length_take]
        omega
      cases hst : staleP c m q with
      | true =>
        -- remove the record at i and continue at i
        set pl2 : PeerList :=
          { pl with
            numPeers := pl.numPeers - 1
            numSeeders := if q.isSeeder then pl.numSeeders - 1 else pl.numSeeders
            peerBuckets := pl.peerBuckets.set j (b.take i ++ b.drop (i + 1)) } with hpl2
        have hred : gcBucketF (fuel + 1) c m pl j i g = gcBucketF fuel c m pl2 j i true := by
          simp only [gcBucketF]
          rw [if_pos hlt, hst, if_pos rfl, hrm]
        have hlen2 : pl2.peerBuckets.length = pl.peerBuckets.length := by
          simp [hpl2, List.length_set]
        have hgd2 : pl2.peerBuckets.getD j [] = b.take i ++ b.drop (i + 1) := by
          simp only [hpl2]
          exact getD_set_self _ hj
        have hjb2 : j < pl2.peerBuckets.length := by rw [hlen2]; exact hj
        have hib2 : i ≤ (pl2.peerBuckets.getD j []).length := by
          rw [hgd2]
          simp only [List.length_append, List.length_take, List.length_drop]
          omega
        have hfuel2 : (pl2.peerBuckets.getD j []).length - i < fuel := by
          rw [hgd2]
          simp only [List.length_append, List.length_take, List.length_drop]
          omega
        obtain ⟨pl3, hrun3, hval3, hwf3⟩ := ih c m pl2 j i true hwfrm hjb2 hib2 hfuel2
        have hdrop2 : (pl2.peerBuckets.getD j []).drop i = b.drop (i + 1) := by
          rw [hgd2]
          exact List.drop_left' htklen
        have htake2 : (pl2.peerBuckets.getD j []).take i = b.take i := by
          rw [hgd2]
          exact List.take_left' htklen
        rw [hdrop2] at hrun3
        rw [hdrop2, htake2] at hval3
        simp only [hpl2] at hval3
        have hany : (b.drop i).any (staleP c m) = true := by
          rw [hdsplit, List.any_cons, hst, Bool.true_or]
        refine ⟨pl3, ?_, ?_, hwf3⟩
        · rw [hred, hrun3, hany, Bool.or_true, Bool.true_or]
        · rw [hval3]
          have hcne : (b.drop i).countP (staleP c m)
              = (b.drop (i + 1)).countP (staleP c m) + 1 := by
            rw [hdsplit, List.countP_cons, hst, if_pos rfl]
          have hfe : (b.drop i).filter (staleP c m)
              = q :: (b.drop (i + 1)).filter (staleP c m) := by
            rw [hdsplit, List.filter_cons, hst]
            simp
          have hne : (b.drop i).filter (fun r => !staleP c m r)
              = (b.drop (i + 1)).filter (fun r => !staleP c m r) := by
            rw [hdsplit, List.filter_cons]
            simp [hst]
          simp only [PeerList.mk.injEq]
          refine ⟨?_, ?_, trivial, ?_⟩
          · -- numSeeders
            rw [hfe]
            simp only [List.countP_cons]
            by_cases hqs : q.isSeeder = true
            · rw [if_pos hqs, if_pos hqs]
              push_cast
              ring
            · rw [if_neg hqs, if_neg hqs]
              push_cast
              ring
          · -- numPeers
            rw [hcne]
            push_cast
            ring
          · -- buckets
            rw [List.set_set, hne]
      | false =>
        -- keep the record, advance the index
        have hred : gcBucketF (fuel + 1) c m pl j i g = gcBucketF fuel c m pl j (i + 1) g := by
          simp only [gcBucketF]
          rw [if_pos hlt, hst, if_neg (by simp)]
        obtain ⟨pl3, hrun3, hval3, hwf3⟩ :=
          ih c m pl j (i + 1) g hwf hj (by rw [← hb]; omega) (by rw [← hb]; omega)
        rw [← hb] at hrun3 hval3
        have htk : b.take (i + 1) = b.take i ++ [q] := by
          rw [List.take_succ, List.getElem?_eq_getElem hlt, ← getP_eq_getElem hlt]
          rfl
        refine ⟨pl3, ?_, ?_, hwf3⟩
        · rw [hred, hrun3]
          have : (b.drop i).any (staleP c m) = (b.drop (i + 1)).any (staleP c m) := by
            rw [hdsplit, List.any_cons, hst, Bool.false_or]
          rw [this]
        · rw [hval3]
          have hcne : (b.drop i).countP (staleP c m) = (b.drop (i + 1)).countP (staleP c m) := by
            rw [hdsplit, List.countP_cons, hst]
            simp
          have hfe : (b.drop i).filter (staleP c m) = (b.drop (i + 1)).filter (staleP c m) := by
            rw [hdsplit, List.filter_cons, hst]
            simp
          have hne : (b.drop i).filter (fun r => !staleP c m r)
              = q :: (b.drop (i + 1)).filter (fun r => !staleP c m r) := by
            rw [hdsplit, List.filter_cons]
            simp [hst]
          simp only [PeerList.mk.injEq]
          refine ⟨by rw [hfe], by rw [hcne], trivial, ?_⟩
          rw [htk, hne]
          simp
    · -- index past the end: the pass is over
      have hieq : i = (pl.peerBuckets.getD j []).length := by omega
      have hred : gcBucketF (fuel + 1) c m pl j i g = some (pl, g) := by
        simp only [gcBucketF]
        rw [if_neg hlt]
      have hdrop : (pl.peerBuckets.getD j []).drop i = [] := by
        rw [hieq, List.drop_length]
      have hval : { pl with
          numPeers := pl.numPeers - (((pl.peerBuckets.getD j []).drop i).countP (staleP c m) : Int)
          numSeeders := pl.numSeeders -
            ((((pl.peerBuckets.getD j []).drop i).filter (staleP c m)).countP (·.isSeeder) : Int)
          peerBuckets := pl.peerBuckets.set j
            ((pl.peerBuckets.getD j []).take i ++
              ((pl.peerBuckets.getD j []).drop i).filter (fun q => !staleP c m q)) } = pl := by
        rw [hdrop, hieq]
        simp only [List.take_length, List.filter_nil, List.countP_nil, List.append_nil,
          Nat.cast_zero, sub_zero]
        rw [set_getD_self hj]
      refine ⟨pl, ?_, hval.symm, hwf⟩
      rw [hred, hdrop]
      simp

theorem take_set_self (l : List Bucket) (j : Nat) (v : Bucket) :
    (l.set j v).take j = l.take j := by
  apply List.ext_getElem
  · simp
  · intro n hn hn2
    have hnj : n < j := by
      simp only [List.length_take] at hn
      omega
    rw [List.getElem_take, List.getElem_take, List.getElem_set, if_neg (by omega)]

theorem getD_eq_getElem_bucket {l : List Bucket} {j : Nat} (hj : j < l.length) :
    l.getD j [] = l[j] := by
  rw [List.getD_eq_getElem?_getD, List.getElem?_eq_getElem hj]
  rfl

/-- The outer loop of the garbage collector starting at bucket `j`: all
buckets from `j` on are filtered, the prefix is untouched, and the flag
records whether any record of those buckets was stale. -/
theorem gcLoopF_spec :
    ∀ (fuel c m : Nat) (pl : PeerList) (j : Nat) (g : Bool),
    WF pl → pl.peerBuckets.length - j < fuel →
    ∃ pl2,
      gcLoopF fuel c m pl j g =
        some (pl2, g || ((pl.peerBuckets.drop j).flatten.any (staleP c m))) ∧
      pl2 = { pl with
        numPeers := pl.numPeers - (((pl.peerBuckets.drop j).flatten.countP (staleP c m)) : Int)
        numSeeders := pl.numSeeders -
          ((((pl.peerBuckets.drop j).flatten.filter (staleP c m)).countP (·.isSeeder)) : Int)
        peerBuckets := pl.peerBuckets.take j ++
          (pl.peerBuckets.drop j).map (fun b => b.filter (fun q => !staleP c m q)) } ∧
      WF pl2 := by
  intro fuel
  induction fuel with
  | zero =>
    intro c m pl j g _ hfuel
    omega
  | succ fuel ih =>
    intro c m pl j g hwf hfuel
    by_cases hj : j < pl.peerBuckets.length
    · -- garbage-collect bucket j, then the rest
      obtain ⟨pl2, hrun2, hval2, hwf2⟩ :=
        gcBucketF_spec ((pl.peerBuckets.getD j []).length + 1) c m pl j 0 g hwf hj
          (Nat.zero_le _) (by omega)
      rw [List.drop_zero] at hrun2 hval2
      rw [List.take_zero, List.nil_append] at hval2
      have hred : gcLoopF (fuel + 1) c m pl j g =
          gcLoopF fuel c m pl2 (j + 1)
            (g || (pl.peerBuckets.getD j []).any (staleP c m)) := by
        simp only [gcLoopF]
        rw [if_pos hj, hrun2]
      have hlen2 : pl2.peerBuckets.length = pl.peerBuckets.length := by
        rw [hval2]
        simp [List.length_set]
      obtain ⟨pl3, hrun3, hval3, hwf3⟩ :=
        ih c m pl2 (j + 1) (g || (pl.peerBuckets.getD j []).any (staleP c m)) hwf2
          (by omega)
      have hdropsucc : pl2.peerBuckets.drop (j + 1) = pl.peerBuckets.drop (j + 1) := by
        rw [hval2]
        exact List.drop_set_of_lt _ _ (Nat.lt_succ_self j)
      have htakesucc : pl2.peerBuckets.take (j + 1) =
          pl.peerBuckets.take j ++
            [(pl.peerBuckets.getD j []).filter (fun q => !staleP c m q)] := by
        rw [hval2]
        have hjlen : j < (pl.peerBuckets.set j
            ((pl.peerBuckets.getD j []).filter (fun q => !staleP c m q))).length := by
          simpa using hj
        rw [List.take_succ, List.getElem?_eq_getElem hjlen, List.getElem_set, if_pos rfl,
          take_set_self]
        rfl
      have hdsplit : pl.peerBuckets.drop j =
          pl.peerBuckets.getD j [] :: pl.peerBuckets.drop (j + 1) := by
        rw [List.drop_eq_getElem_cons hj, getD_eq_getElem_bucket hj]
      rw [hdropsucc] at hrun3 hval3
      rw [htakesucc] at hval3
      refine ⟨pl3, ?_, ?_, hwf3⟩
      · rw [hred, hrun3, hdsplit]
        simp only [List.flatten_cons, List.any_append, Bool.or_assoc]
      · rw [hval3, hval2]
        simp only [PeerList.mk.injEq]
        have hfl : (pl.peerBuckets.drop j).flatten =
            pl.peerBuckets.getD j [] ++ (pl.peerBuckets.drop (j + 1)).flatten := by
          rw [hdsplit, List.flatten_cons]
        refine ⟨?_, ?_, trivial, ?_⟩
        · rw [hfl]
          simp only [List.filter_append, List.countP_append]
          push_cast
          ring
        · rw [hfl]
          simp only [List.countP_append]
          push_cast
          ring
        · rw [hdsplit]
          simp only [List.map_cons]
          rw [List.append_assoc]
          rfl
    · -- all buckets processed
      have hred : gcLoopF (fuel + 1) c m pl j g = some (pl, g) := by
        simp only [gcLoopF]
        rw [if_neg hj]
      have hdrop : pl.peerBuckets.drop j = [] :=
        List.drop_of_length_le (by omega)
      have htake : pl.peerBuckets.take j = pl.peerBuckets :=
        List.take_of_length_le (by omega)
      refine ⟨pl, ?_, ?_, hwf⟩
      · rw [hred, hdrop]
        simp
      · rw [hdrop, htake]
        simp

-- ----------------------------------------------------------------------
-- C2: garbage collection removes exactly the stale records
-- ----------------------------------------------------------------------

/-- C2: on a well-formed list, `collectGarbage(cutoff, maxDiff)` removes
exactly those records whose timestamp `t` satisfies `t = cutoff`, or
`t < cutoff ∧ 0xFFFF − (cutoff − t) > maxDiff`, or
`t > cutoff ∧ t − cutoff > maxDiff`; every bucket is replaced by its
subsequence of non-stale records (so every record not satisfying the
staleness predicate survives unchanged, in place), and the returned flag
says whether anything was removed. -/
theorem collectGarbage_correct (pl : PeerList) (c m : Nat) (hwf : WF pl) :
    ∃ pl2 gc, pl.collectGarbage c m = some (pl2, gc) ∧
      pl2.peerBuckets = pl.peerBuckets.map (fun b => b.filter (fun q => !staleP c m q)) ∧
      gc = (allPeers pl).any (staleP c m) ∧
      (∀ t, stale c m t = true ↔
        (t = c ∨ (t < c ∧ 65535 - (c - t) > m) ∨ (t > c ∧ t - c > m))) := by
  obtain ⟨pl2, hrun, hval, hwf2⟩ :=
    gcLoopF_spec (pl.peerBuckets.length + 1) c m pl 0 false hwf (by omega)
  rw [List.drop_zero] at hrun hval
  rw [List.take_zero, List.nil_append] at hval
  refine ⟨pl2, (allPeers pl).any (staleP c m), ?_, ?_, rfl, ?_⟩
  · unfold PeerList.collectGarbage
    rw [hrun, Bool.false_or]
    rfl
  · rw [hval]
  · intro t
    unfold stale
    split_ifs with h1 h2 <;> simp <;> omega

/-- One bucket, a stale seeder and a fresh leecher, cutoff 100, maxDiff 5. -/
def plC2 : PeerList :=
  ⟨1, 2, 0, [[⟨List.replicate 18 0, 1, 4⟩, ⟨List.replicate 17 0 ++ [1], 2, 102⟩]]⟩

theorem collectGarbage_correct_witness : WF plC2 ∧
    (∃ pl2 gc, plC2.collectGarbage 100 5 = some (pl2, gc) ∧
      pl2.peerBuckets = plC2.peerBuckets.map (fun b => b.filter (fun q => !staleP 100 5 q)) ∧
      gc = (allPeers plC2).any (staleP 100 5) ∧
      (∀ t, stale 100 5 t = true ↔
        (t = 100 ∨ (t < 100 ∧ 65535 - (100 - t) > 5) ∨ (t > 100 ∧ t - 100 > 5)))) :=
  ⟨by decide, collectGarbage_correct plC2 100 5 (by decide)⟩

-- ----------------------------------------------------------------------
-- computeTargetBuckets and rebalanceBuckets (peer_list.go)
-- ----------------------------------------------------------------------

/-- The doubling loop `for t := start; t != 0; t = t >> 1 { acc *= 2 }`.
The fuel only bounds the iteration count; `t` halvings always finish
within `t` steps, so callers pass the start value itself. -/
def mulLoopF : Nat → Nat → Nat → Nat
  | 0, _, acc => acc
  | fuel + 1, t, acc => if t = 0 then acc else mulLoopF fuel (t / 2) (acc * 2)

/-- `computeTargetBuckets(numPeers)`: the power-of-two bucket-count pair
(target, defensiveTarget).  `numPeers` is a Go `int`; `bufferWidth` is
`numPeers/10 - 1`, so the second start value is `numPeers + numPeers/10 - 1`. -/
def computeTargetBuckets (numPeers : Int) : Nat × Nat :=
  if numPeers > 0 then
    (mulLoopF ((numPeers.toNat - 1) >>> 9) ((numPeers.toNat - 1) >>> 9) 1,
     mulLoopF ((numPeers.toNat + numPeers.toNat / 10 - 1) >>> 9)
       ((numPeers.toNat + numPeers.toNat / 10 - 1) >>> 9) 1)
  else (1, 1)

/-- `sort.Sort` on a bucket: sort ascending by the 18-byte identity. -/
def sortBucket (b : Bucket) : Bucket :=
  b.mergeSort (fun a b => bytesCompare a.ident b.ident != .gt)

/-- `(*peerList).rebalanceBuckets`: if the bucket count must change (with
the defensive hysteresis band when shrinking), redistribute every record
into a fresh vector of `target` buckets and sort each bucket. -/
def PeerList.rebalanceBuckets (pl : PeerList) : PeerList × Bool :=
  let td := computeTargetBuckets pl.numPeers
  if pl.peerBuckets.length = td.1 then (pl, false)
  else if pl.peerBuckets.length > td.1 ∧ td.1 ≠ td.2 then (pl, false)
  else
    let newBuckets := (pl.peerBuckets.flatten).foldl
      (fun acc q => acc.set (djb2 q.ident % acc.length)
        ((acc.getD (djb2 q.ident % acc.length) []).concat q))
      (List.replicate td.1 ([] : Bucket))
    ({ pl with peerBuckets := newBuckets.map sortBucket }, true)

-- ----------------------------------------------------------------------
-- The smallest power of two ≥ m, and the characterization of the loops
-- ----------------------------------------------------------------------

/-- The smallest power of two `≥ m` (minimum 1), the quantity the spec's
bucket-count heuristic is phrased in. -/
def leastPow2GE (m : Nat) : Nat := 2 ^ Nat.clog 2 m

/-- `⌈x/512⌉`. -/
def ceilDiv512 (x : Nat) : Nat := (x + 511) / 512

theorem leastPow2GE_ge (m : Nat) : m ≤ leastPow2GE m :=
  Nat.le_pow_clog (by norm_num) m

theorem leastPow2GE_min {m k : Nat} (h : m ≤ 2 ^ k) : leastPow2GE m ≤ 2 ^ k :=
  Nat.pow_le_pow_right (by norm_num) ((Nat.le_pow_iff_clog_le (by norm_num)).mp h)

theorem leastPow2GE_eq {m k : Nat} (h1 : m ≤ 2 ^ k) (h2 : 2 ^ k < 2 * m) :
    leastPow2GE m = 2 ^ k := by
  refine Nat.le_antisymm (leastPow2GE_min h1) ?_
  cases k with
  | zero =>
    have : 1 ≤ leastPow2GE m := Nat.one_le_two_pow
    simpa using this
  | succ k =>
    by_contra hlt
    push_neg at hlt
    have hcl : 2 ^ Nat.clog 2 m < 2 ^ (k + 1) := hlt
    have hle : Nat.clog 2 m ≤ k :=
      Nat.lt_succ_iff.mp ((Nat.pow_lt_pow_iff_right (by norm_num : (1:Nat) < 2)).mp hcl)
    have hm : m ≤ 2 ^ k :=
      le_trans (leastPow2GE_ge m) (Nat.pow_le_pow_right (by norm_num) hle)
    rw [pow_succ] at h2
    omega

theorem size_succ_half {t : Nat} (ht : t ≠ 0) : Nat.size t = Nat.size (t / 2) + 1 := by
  have hpow : ∀ k : Nat, 2 ^ (k + 1) = 2 ^ k * 2 := fun k => pow_succ 2 k
  apply Nat.le_antisymm
  · rw [Nat.size_le]
    have := Nat.lt_size_self (t / 2)
    have h := hpow (Nat.size (t / 2))
    omega
  · have hs1 : 1 ≤ Nat.size t := Nat.size_pos.mpr (Nat.pos_of_ne_zero ht)
    have hlt : t < 2 ^ Nat.size t := Nat.lt_size_self t
    have hdiv : t / 2 < 2 ^ (Nat.size t - 1) := by
      have h := hpow (Nat.size t - 1)
      rw [Nat.sub_add_cancel hs1] at h
      omega
    have := Nat.size_le.mpr hdiv
    omega

theorem size_eq_clog (s : Nat) : Nat.size s = Nat.clog 2 (s + 1) := by
  apply Nat.le_antisymm
  · rw [Nat.size_le]
    have := Nat.le_pow_clog (by norm_num : (1:Nat) < 2) (s + 1)
    omega
  · exact (Nat.le_pow_iff_clog_le (by norm_num)).mp (Nat.lt_size_self s)

/-- The doubling loop computes `acc * 2 ^ (bit length of t)`. -/
theorem mulLoopF_eq : ∀ (fuel t acc : Nat), t ≤ fuel →
    mulLoopF fuel t acc = acc * 2 ^ Nat.size t := by
  intro fuel
  induction fuel with
  | zero =>
    intro t acc ht
    have : t = 0 := by omega
    subst this
    simp [mulLoopF, Nat.size_zero]
  | succ fuel ih =>
    intro t acc ht
    by_cases ht0 : t = 0
    · subst ht0
      simp [mulLoopF, Nat.size_zero]
    · have hstep : mulLoopF (fuel + 1) t acc = mulLoopF fuel (t / 2) (acc * 2) := by
        simp only [mulLoopF]
        rw [if_neg ht0]
      rw [hstep, ih (t / 2) (acc * 2) (by omega), size_succ_half ht0, pow_succ]
      ring

/-- The doubling loop computes the smallest power of two strictly greater
than its start value. -/
theorem mulLoopF_leastPow2 (t : Nat) : mulLoopF t t 1 = leastPow2GE (t + 1) := by
  rw [mulLoopF_eq t t 1 (Nat.le_refl t), Nat.one_mul, size_eq_clog]
  rfl

theorem redistribute_length (step : List Bucket → Peer → List Bucket)
    (hstep : ∀ acc q, (step acc q).length = acc.length) :
    ∀ (peers : List Peer) (acc : List Bucket), (peers.foldl step acc).length = acc.length := by
  intro peers
  induction peers with
  | nil => intro acc; rfl
  | cons q rest ih =>
    intro acc
    rw [List.foldl_cons, ih, hstep]

-- ----------------------------------------------------------------------
-- C4: the bucket-count heuristic and the rebalance condition
-- ----------------------------------------------------------------------

/-- C4 (amended): for every `n ≥ 0`, `computeTargetBuckets n` returns
`target` = the smallest power of two ≥ ⌈n/512⌉ and `defensive` = the
smallest power of two **strictly greater than** `⌊(n + n/10 − 1)/512⌋`
(each at least 1) — in particular (256,1,1), (512,1,2), (513,2,2),
(1024,2,4), (1025,4,4) — and `rebalanceBuckets` rebuilds the bucket vector
to exactly `target` buckets iff the current bucket count differs from
`target`, except when the current count exceeds `target` while
`target ≠ defensive`. -/
theorem computeTargetBuckets_rebalance_correct :
    (∀ n : Nat, (computeTargetBuckets (n : Int)).1 = leastPow2GE (ceilDiv512 n)) ∧
    (∀ n : Nat, (computeTargetBuckets (n : Int)).2 = leastPow2GE ((n + n / 10 - 1) / 512 + 1)) ∧
    computeTargetBuckets 256 = (1, 1) ∧ computeTargetBuckets 512 = (1, 2) ∧
    computeTargetBuckets 513 = (2, 2) ∧ computeTargetBuckets 1024 = (2, 4) ∧
    computeTargetBuckets 1025 = (4, 4) ∧
    (∀ pl : PeerList,
      (pl.rebalanceBuckets.2 = true ↔
        (pl.peerBuckets.length ≠ (computeTargetBuckets pl.numPeers).1 ∧
          ¬(pl.peerBuckets.length > (computeTargetBuckets pl.numPeers).1 ∧
            (computeTargetBuckets pl.numPeers).1 ≠ (computeTargetBuckets pl.numPeers).2))) ∧
      (pl.rebalanceBuckets.2 = true →
        pl.rebalanceBuckets.1.peerBuckets.length = (computeTargetBuckets pl.numPeers).1)) := by
  have hshift : ∀ x : Nat, x >>> 9 = x / 512 := by
    intro x
    rw [Nat.shiftRight_eq_div_pow]
  have htgt : ∀ n : Nat, (computeTargetBuckets (n : Int)).1 = leastPow2GE (ceilDiv512 n) := by
    intro n
    by_cases hn : n = 0
    · subst hn
      have : ceilDiv512 0 = 0 := by norm_num [ceilDiv512]
      rw [this]
      simp [computeTargetBuckets, leastPow2GE, Nat.clog]
    · have hpos : (0 : Int) < (n : Int) := by exact_mod_cast Nat.pos_of_ne_zero hn
      simp only [computeTargetBuckets, if_pos hpos, Int.toNat_natCast, hshift]
      rw [mulLoopF_leastPow2]
      congr 1
      unfold ceilDiv512
      omega
  have hdef : ∀ n : Nat,
      (computeTargetBuckets (n : Int)).2 = leastPow2GE ((n + n / 10 - 1) / 512 + 1) := by
    intro n
    by_cases hn : n = 0
    · subst hn
      simp [computeTargetBuckets, leastPow2GE]
    · have hpos : (0 : Int) < (n : Int) := by exact_mod_cast Nat.pos_of_ne_zero hn
      simp only [computeTargetBuckets, if_pos hpos, Int.toNat_natCast, hshift]
      rw [mulLoopF_leastPow2]
  refine ⟨htgt, hdef, by decide, by decide, by decide, by decide, by decide, ?_⟩
  intro pl
  constructor
  · unfold PeerList.rebalanceBuckets
    by_cases h1 : pl.peerBuckets.length = (computeTargetBuckets pl.numPeers).1
    · rw [if_pos h1]
      simp [h1]
    · rw [if_neg h1]
      by_cases h2 : pl.peerBuckets.length > (computeTargetBuckets pl.numPeers).1 ∧
          (computeTargetBuckets pl.numPeers).1 ≠ (computeTargetBuckets pl.numPeers).2
      · rw [if_pos h2]
        simp [h2]
      · rw [if_neg h2]
        simp [h1, h2]
  · intro hreb
    unfold PeerList.rebalanceBuckets at hreb ⊢
    by_cases h1 : pl.peerBuckets.length = (computeTargetBuckets pl.numPeers).1
    · rw [if_pos h1] at hreb
      cases hreb
    · rw [if_neg h1] at hreb ⊢
      by_cases h2 : pl.peerBuckets.length > (computeTargetBuckets pl.numPeers).1 ∧
          (computeTargetBuckets pl.numPeers).1 ≠ (computeTargetBuckets pl.numPeers).2
      · rw [if_pos h2] at hreb
        cases hreb
      · rw [if_neg h2]
        simp only [List.length_map]
        rw [redistribute_length _ (fun acc q => List.length_set _ _ _)]
        exact List.length_replicate _ _

/-- C4 counterexample: at `n = 29790` (where `n + n/10 − 1 = 32768 = 64·512`)
the code returns `defensive = 128`, while the claim's formula — the smallest
power of two ≥ ⌈(n + n/10 − 1)/512⌉ — gives 64. -/
theorem computeTargetBuckets_claim_cex :
    (computeTargetBuckets (29790 : Int)).2 = 128 ∧
    leastPow2GE (ceilDiv512 (29790 + 29790 / 10 - 1)) = 64 ∧
    (computeTargetBuckets (29790 : Int)).2 ≠
      leastPow2GE (ceilDiv512 (29790 + 29790 / 10 - 1)) := by
  have h1 : (computeTargetBuckets (29790 : Int)).2 = 128 := by decide
  have harg : ceilDiv512 (29790 + 29790 / 10 - 1) = 64 := by norm_num [ceilDiv512]
  have h2 : leastPow2GE (ceilDiv512 (29790 + 29790 / 10 - 1)) = 64 := by
    rw [harg]
    have := leastPow2GE_eq (m := 64) (k := 6) (by norm_num) (by norm_num)
    simpa using this
  exact ⟨h1, h2, by rw [h1, h2]; norm_num⟩

-- ----------------------------------------------------------------------
-- Enumeration and sampling (peer_list.go getAllPeers / getAnnouncePeers)
-- ----------------------------------------------------------------------

/-- `(*peerList).getAllPeers`: split the records into non-seeders and
seeders in bucket order; leechers are first, then seeders. -/
def PeerList.getAllPeers (pl : PeerList) : List Peer :=
  let seeders := pl.peerBuckets.flatten.filter (·.isSeeder)
  let leechers := pl.peerBuckets.flatten.filter (fun q => !q.isSeeder)
  if seeders.length > 0 then leechers ++ seeders else leechers

/-- `(*peerList).getAllSeeders`. -/
def PeerList.getAllSeeders (pl : PeerList) : List Peer :=
  pl.peerBuckets.flatten.filter (·.isSeeder)

/-- `(*peerList).getAllLeechers`. -/
def PeerList.getAllLeechers (pl : PeerList) : List Peer :=
  pl.peerBuckets.flatten.filter (·.isLeecher)

/-- Modelled from the spec: the seeded generator `random.Intn(s0, s1, n)`
of chihaya's `middleware/pkg/random` package, which is outside this
repository.  §4.3 only requires an allocation-free xorshift-style
`next(s0, s1) → (value, s0', s1')` with the value reduced mod `n`; we model
the xorshift128+ update on 64-bit words. -/
def randIntn (s0 s1 n : Nat) : Nat × Nat × Nat :=
  let x := (s0 ^^^ (s0 <<< 23)) % 2 ^ 64
  let s1n := (x ^^^ s1 ^^^ (x >>> 17) ^^^ (s1 >>> 26)) % 2 ^ 64
  (((s1n + s1) % 2 ^ 64) % n, s1, s1n)

/-- One pass over the buckets of the random-seeder sampler: consult
position `offset mod len` of each non-empty bucket, accept seeders until
`numWant` records are collected. -/
def sampleBucketsSeeders (numWant : Int) (offset : Nat) :
    List Bucket → List Peer → List Peer
  | [], acc => acc
  | b :: rest, acc =>
    if (acc.length : Int) = numWant then acc
    else if b.length = 0 then sampleBucketsSeeders numWant offset rest acc
    else
      if (getP b (offset % b.length)).isSeeder then
        sampleBucketsSeeders numWant offset rest (acc.concat (getP b (offset % b.length)))
      else sampleBucketsSeeders numWant offset rest acc

/-- Same pass accepting leechers. -/
def sampleBucketsLeechers (numWant : Int) (offset : Nat) :
    List Bucket → List Peer → List Peer
  | [], acc => acc
  | b :: rest, acc =>
    if (acc.length : Int) = numWant then acc
    else if b.length = 0 then sampleBucketsLeechers numWant offset rest acc
    else
      if (getP b (offset % b.length)).isLeecher then
        sampleBucketsLeechers numWant offset rest (acc.concat (getP b (offset % b.length)))
      else sampleBucketsLeechers numWant offset rest acc

/-- `(*peerList).getRandomSeeders`: redraw a bucket offset until enough
seeders are collected.  The Go loop does not terminate when fewer than
`numWant` seeders exist; the fuel bounds the number of draws and `none`
models that hang (and the `make` panic on negative `numWant`). -/
def getRandomSeedersF : Nat → PeerList → Int → Nat → Nat → List Peer → Option (List Peer)
  | 0, _, _, _, _, _ => none
  | fuel + 1, pl, numWant, s0, s1, acc =>
    if (acc.length : Int) < numWant then
      getRandomSeedersF fuel pl numWant (randIntn s0 s1 1024).2.1 (randIntn s0 s1 1024).2.2
        (sampleBucketsSeeders numWant (randIntn s0 s1 1024).1 pl.peerBuckets acc)
    else some acc

def PeerList.getRandomSeeders (pl : PeerList) (numWant : Int) (s0 s1 : Nat) :
    Option (List Peer) :=
  if numWant < 0 then none
  else if numWant = 0 then some []
  else getRandomSeedersF (2 ^ 32) pl numWant s0 s1 []

/-- `(*peerList).getRandomLeechers`. -/
def getRandomLeechersF : Nat → PeerList → Int → Nat → Nat → List Peer → Option (List Peer)
  | 0, _, _, _, _, _ => none
  | fuel + 1, pl, numWant, s0, s1, acc =>
    if (acc.length : Int) < numWant then
      getRandomLeechersF fuel pl numWant (randIntn s0 s1 1024).2.1 (randIntn s0 s1 1024).2.2
        (sampleBucketsLeechers numWant (randIntn s0 s1 1024).1 pl.peerBuckets acc)
    else some acc

def PeerList.getRandomLeechers (pl : PeerList) (numWant : Int) (s0 s1 : Nat) :
    Option (List Peer) :=
  if numWant < 0 then none
  else if numWant = 0 then some []
  else getRandomLeechersF (2 ^ 32) pl numWant s0 s1 []

/-- `(*peerList).getAnnouncePeers`: seeders get leechers only; leechers get
as many seeders as possible, padded with random leechers.  The announcing
peer itself is not consulted. -/
def PeerList.getAnnouncePeers (pl : PeerList) (numWant : Int) (seeder : Bool)
    (_announcingPeer : Peer) (s0 s1 : Nat) : Option (List Peer) :=
  if seeder then
    -- seeder announces: only leechers
    let nw := if numWant > pl.numPeers - pl.numSeeders then pl.numPeers - pl.numSeeders
      else numWant
    if nw = pl.numPeers - pl.numSeeders then some pl.getAllLeechers
    else pl.getRandomLeechers nw s0 s1
  else
    -- leecher announces: seeders as many as possible, then leechers
    let nw := if numWant > pl.numPeers then pl.numPeers else numWant
    if nw ≤ pl.numSeeders then pl.getRandomSeeders nw s0 s1
    else if nw = pl.numPeers then some pl.getAllPeers
    else
      match pl.getRandomLeechers (nw - (pl.getAllSeeders.length : Int)) s0 s1 with
      | none => none
      | some ls => some (pl.getAllSeeders ++ ls)

-- ----------------------------------------------------------------------
-- C3: the full-swarm announce sample
-- ----------------------------------------------------------------------

/-- The ordering property asserted by the claim: every seeder-flagged
record appears before every other record (seeders form a prefix). -/
def SeedersBeforeLeechers (ps : List Peer) : Prop :=
  ∀ j, j < ps.length → ∀ i, i < j →
    (getP ps j).isSeeder = true → (getP ps i).isSeeder = true

instance (ps : List Peer) : Decidable (SeedersBeforeLeechers ps) := by
  unfold SeedersBeforeLeechers; infer_instance

/-- On a well-formed list all records are distinct (identities differ
within a bucket by strict sortedness and across buckets by the hash). -/
theorem allPeers_nodup {pl : PeerList} (hwf : WF pl) : (allPeers pl).Nodup := by
  have hident : List.Pairwise (fun a b : Peer => a.ident ≠ b.ident) (allPeers pl) := by
    rw [allPeers, List.pairwise_flatten]
    constructor
    · intro b hb
      refine (hwf.2.1 b hb).imp ?_
      intro a b hab heq
      rw [identLt, heq, bytesCompare_self] at hab
      cases hab
    · rw [List.pairwise_iff_getElem]
      intro i j hi hj hij x hx y hy
      intro heq
      have hxi : djb2 x.ident % pl.peerBuckets.length = i := by
        have := hwf.2.2.1 i hi x (by rw [getD_eq_getElem_bucket hi]; exact hx)
        exact this
      have hyj : djb2 y.ident % pl.peerBuckets.length = j := by
        have := hwf.2.2.1 j hj y (by rw [getD_eq_getElem_bucket hj]; exact hy)
        exact this
      rw [heq] at hxi
      omega
  exact hident.imp (fun h heq => h (by rw [heq]))

/-- C3 (amended): for every announce by a leecher on a well-formed list
whose `numWant` is at least `numPeers` (so the cap makes it `numPeers`)
and `numPeers > numSeeders`, the sample is exactly the non-seeders in
bucket order followed by the seeders in bucket order: it contains every
peer of the list exactly once, with all leechers appearing before all
seeders. -/
theorem getAnnouncePeers_full_correct (pl : PeerList) (numWant : Int) (p : Peer)
    (s0 s1 : Nat) (hwf : WF pl) (hcap : pl.numPeers ≤ numWant)
    (hsl : pl.numSeeders < pl.numPeers) :
    pl.getAnnouncePeers numWant false p s0 s1 =
      some ((allPeers pl).filter (fun q => !q.isSeeder) ++ (allPeers pl).filter (·.isSeeder)) ∧
    ((allPeers pl).filter (fun q => !q.isSeeder) ++
      (allPeers pl).filter (·.isSeeder)).Perm (allPeers pl) ∧
    ((allPeers pl).filter (fun q => !q.isSeeder) ++
      (allPeers pl).filter (·.isSeeder)).Nodup := by
  have hperm : ((allPeers pl).filter (fun q => !q.isSeeder) ++
      (allPeers pl).filter (·.isSeeder)).Perm (allPeers pl) := by
    have h := (allPeers pl).filter_append_perm (fun q => !q.isSeeder)
    have hcongr : (allPeers pl).filter (fun q => !!q.isSeeder)
        = (allPeers pl).filter (·.isSeeder) := by
      apply List.filter_congr
      intro q _
      simp
    rw [hcongr] at h
    exact h
  refine ⟨?_, hperm, hperm.symm.nodup (allPeers_nodup hwf)⟩
  unfold PeerList.getAnnouncePeers
  rw [if_neg (by simp)]
  have hnw : (if numWant > pl.numPeers then pl.numPeers else numWant) = pl.numPeers := by
    split_ifs with h
    · rfl
    · omega
  rw [hnw, if_neg (by omega), if_pos rfl]
  unfold PeerList.getAllPeers
  by_cases hs : (pl.peerBuckets.flatten.filter (·.isSeeder)).length > 0
  · rw [if_pos hs]
    rfl
  · rw [if_neg hs]
    have : pl.peerBuckets.flatten.filter (·.isSeeder) = [] :=
      List.length_eq_zero.mp (by omega)
    rw [allPeers, this, List.append_nil]

/-- Counterexample state: one bucket holding a leecher then a seeder. -/
def plC3 : PeerList :=
  ⟨1, 2, 0, [[⟨List.replicate 18 0, 2, 7⟩, ⟨List.replicate 17 0 ++ [1], 1, 7⟩]]⟩

/-- The record the full-swarm sample starts with (the leecher). -/
def lpC3 : Peer := ⟨List.replicate 18 0, 2, 7⟩

/-- The seeder record, returned last. -/
def spC3 : Peer := ⟨List.replicate 17 0 ++ [1], 1, 7⟩

/-- C3 counterexample: a well-formed list with one leecher and one seeder,
announced to by a leecher with `numWant = numPeers = 2 > numSeeders = 1`:
the sample is `[leecher, seeder]` — the leecher comes first, so the claimed
"all seeders before all leechers" ordering is false. -/
theorem getAnnouncePeers_seedersFirst_cex :
    WF plC3 ∧ plC3.numPeers ≤ (2 : Int) ∧ plC3.numSeeders < plC3.numPeers ∧
    plC3.getAnnouncePeers 2 false lpC3 0 0 = some [lpC3, spC3] ∧
    ¬ SeedersBeforeLeechers [lpC3, spC3] := by
  refine ⟨by decide, by decide, by decide, by decide, ?_⟩
  intro h
  have := h 1 (by decide) 0 (by decide) (by decide)
  simp [getP, lpC3, Peer.isSeeder, peerFlagSeeder] at this

theorem getAnnouncePeers_full_correct_witness : WF plC3 ∧ plC3.numPeers ≤ (2 : Int) ∧
    plC3.numSeeders < plC3.numPeers ∧
    (plC3.getAnnouncePeers 2 false lpC3 0 0 =
      some ((allPeers plC3).filter (fun q => !q.isSeeder) ++
        (allPeers plC3).filter (·.isSeeder)) ∧
    ((allPeers plC3).filter (fun q => !q.isSeeder) ++
      (allPeers plC3).filter (·.isSeeder)).Perm (allPeers plC3) ∧
    ((allPeers plC3).filter (fun q => !q.isSeeder) ++
      (allPeers plC3).filter (·.isSeeder)).Nodup) :=
  ⟨by decide, by decide, by decide,
    getAnnouncePeers_full_correct plC3 2 lpC3 0 0 (by decide) (by decide) (by decide)⟩

-- ----------------------------------------------------------------------
-- The store: swarms, shards and the façade (types.go, shard_container.go,
-- peer_store.go).  One shard is modelled; the shard map is an association
-- list with distinct keys.
-- ----------------------------------------------------------------------

/-- A 20-byte infohash. -/
abbrev InfoHash := List Nat

/-- A swarm: up to two peer lists, one per address family (`types.go`). -/
structure Swarm where
  peers4 : Option PeerList
  peers6 : Option PeerList
  deriving DecidableEq

/-- Address family discriminator (`bittorrent.AddressFamily`). -/
inductive AF where
  | v4
  | v6
  deriving DecidableEq, Repr

/-- One shard's swarm map. -/
abbrev Shard := List (InfoHash × Swarm)

deriving instance DecidableEq for Except

/-- Errors and abnormal outcomes of the façade: `storage.ErrResourceDoesNotExist`,
`ErrInvalidIP`, and a Go runtime panic (or a non-terminating sampler loop). -/
inductive StoreErr where
  | notFound
  | invalidIP
  | panicked
  deriving DecidableEq, Repr

def assocLookup : Shard → InfoHash → Option Swarm
  | [], _ => none
  | (k, v) :: rest, ih => if k = ih then some v else assocLookup rest ih

def assocSet : Shard → InfoHash → Swarm → Shard
  | [], ih, sw => [(ih, sw)]
  | (k, v) :: rest, ih, sw =>
    if k = ih then (k, sw) :: rest else (k, v) :: assocSet rest ih sw

def assocDelete : Shard → InfoHash → Shard
  | [], _ => []
  | (k, v) :: rest, ih => if k = ih then rest else (k, v) :: assocDelete rest ih

/-- The v4-in-v6 prefix. -/
def v4InV6Prefix : List Nat := [0, 0, 0, 0, 0, 0, 0, 0, 0, 0, 255, 255]

/-- Go's `net.IP.To16`: 4 bytes become the v4-mapped 16-byte form, 16 bytes
pass through, anything else yields `nil` (`none`). -/
def ipTo16 (ip : List Nat) : Option (List Nat) :=
  if ip.length = 4 then some (v4InV6Prefix ++ ip)
  else if ip.length = 16 then some ip
  else none

/-- `makePeer(p, flag, peerTime)`: build the packed record.  `setIP` panics
(`none`) unless `p.IP.To16()` produced exactly 16 bytes — in particular when
`To16` returned `nil` for an invalid length. -/
def makePeer (ip : List Nat) (port flag time : Nat) : Option Peer :=
  match ipTo16 ip with
  | none => none
  | some ip16 =>
    if ip16.length = 16 then some ⟨ip16 ++ [port / 256 % 256, port % 256], flag, time⟩
    else none

/-- `(*PeerStore).putPeer` on one shard: create the swarm and/or the
family's peer list lazily, upsert, rebalance; the returned `Int` is the
swarm delta passed to `unlockShardByHash` (1 iff a swarm was created). -/
def storePutPeer (sh : Shard) (ih : InfoHash) (p : Peer) (af : AF) : Shard × Int :=
  match assocLookup sh ih with
  | none =>
    let pl1 := (newPeerList.putPeer p).rebalanceBuckets.1
    let sw : Swarm := if af = .v4 then ⟨some pl1, none⟩ else ⟨none, some pl1⟩
    (assocSet sh ih sw, 1)
  | some sw =>
    if af = .v4 then
      match sw.peers4 with
      | none =>
        (assocSet sh ih ⟨some (newPeerList.putPeer p).rebalanceBuckets.1, sw.peers6⟩, 0)
      | some pl =>
        (assocSet sh ih ⟨some (pl.putPeer p).rebalanceBuckets.1, sw.peers6⟩, 0)
    else
      match sw.peers6 with
      | none =>
        (assocSet sh ih ⟨sw.peers4, some (newPeerList.putPeer p).rebalanceBuckets.1⟩, 0)
      | some pl =>
        (assocSet sh ih ⟨sw.peers4, some (pl.putPeer p).rebalanceBuckets.1⟩, 0)

/-- The emptiness test deciding swarm removal at the end of
`(*PeerStore).deletePeer` (with Go's short-circuit evaluation). -/
def swarmRemovable (sw : Swarm) : Bool :=
  match sw.peers4, sw.peers6 with
  | none, none => true
  | some l4, none => l4.numPeers = 0
  | none, some l6 => l6.numPeers = 0
  | some _, some _ => false

/-- `(*PeerStore).deletePeer` on one shard: remove the endpoint from the
family's list, unlink an emptied list, and delete the swarm when no family
remains.  Returns the new shard, whether the swarm was deleted, and the
error result. -/
def storeDeletePeer (sh : Shard) (ih : InfoHash) (p : Peer) (af : AF) :
    Shard × Bool × Option StoreErr :=
  match assocLookup sh ih with
  | none => (sh, false, some .notFound)
  | some sw =>
    if af = .v4 then
      match sw.peers4 with
      | none => (sh, false, some .notFound)
      | some pl =>
        match pl.removePeer p with
        | (_, false) => (sh, false, some .notFound)
        | (pl1, true) =>
          let sw1 : Swarm :=
            if pl1.numPeers = 0 then ⟨none, sw.peers6⟩
            else ⟨some pl1.rebalanceBuckets.1, sw.peers6⟩
          if swarmRemovable sw1 then (assocDelete (assocSet sh ih sw1) ih, true, none)
          else (assocSet sh ih sw1, false, none)
    else
      match sw.peers6 with
      | none => (sh, false, some .notFound)
      | some pl =>
        match pl.removePeer p with
        | (_, false) => (sh, false, some .notFound)
        | (pl1, true) =>
          let sw1 : Swarm :=
            if pl1.numPeers = 0 then ⟨sw.peers4, none⟩
            else ⟨sw.peers4, some pl1.rebalanceBuckets.1⟩
          if swarmRemovable sw1 then (assocDelete (assocSet sh ih sw1) ih, true, none)
          else (assocSet sh ih sw1, false, none)

/-- The swarm delta the `defer` in `deletePeer` passes to the unlock. -/
def deleteUnlockDelta (deleted : Bool) : Int := if deleted then -1 else 0

/-- `(*PeerStore).PutSeeder`: build a seeder record (panicking on a bad IP
before the shard lock is touched) and upsert it. -/
def storePutSeeder (sh : Shard) (ih : InfoHash) (ip : List Nat) (port : Nat)
    (af : AF) (now : Nat) : Except StoreErr (Shard × Int) :=
  match makePeer ip port peerFlagSeeder now with
  | none => .error .panicked
  | some p => .ok (storePutPeer sh ih p af)

/-- `(*PeerStore).PutLeecher`. -/
def storePutLeecher (sh : Shard) (ih : InfoHash) (ip : List Nat) (port : Nat)
    (af : AF) (now : Nat) : Except StoreErr (Shard × Int) :=
  match makePeer ip port peerFlagLeecher now with
  | none => .error .panicked
  | some p => .ok (storePutPeer sh ih p af)

/-- `(*PeerStore).GraduateLeecher` simply calls `PutSeeder`. -/
def storeGraduateLeecher (sh : Shard) (ih : InfoHash) (ip : List Nat) (port : Nat)
    (af : AF) (now : Nat) : Except StoreErr (Shard × Int) :=
  storePutSeeder sh ih ip port af now

/-- `(*PeerStore).DeleteSeeder`: probe with the seeder flag and zero time. -/
def storeDeleteSeeder (sh : Shard) (ih : InfoHash) (ip : List Nat) (port : Nat)
    (af : AF) : Except StoreErr (Shard × Bool × Option StoreErr) :=
  match makePeer ip port peerFlagSeeder 0 with
  | none => .error .panicked
  | some p => .ok (storeDeletePeer sh ih p af)

/-- `(*PeerStore).DeleteLeecher`: probe with the leecher flag and zero time. -/
def storeDeleteLeecher (sh : Shard) (ih : InfoHash) (ip : List Nat) (port : Nat)
    (af : AF) : Except StoreErr (Shard × Bool × Option StoreErr) :=
  match makePeer ip port peerFlagLeecher 0 with
  | none => .error .panicked
  | some p => .ok (storeDeletePeer sh ih p af)

/-- One family of a swarm under the shard GC pass: collect, rebalance if
anything was removed, unlink if emptied (`none` of the outer `Option` is
the impossible removePeer-miss panic). -/
def gcFamilyList (c m : Nat) : Option PeerList → Option (Option PeerList)
  | none => some none
  | some pl =>
    match pl.collectGarbage c m with
    | none => none
    | some (pl1, g) =>
      let pl2 := if g then pl1.rebalanceBuckets.1 else pl1
      some (if pl2.numPeers = 0 then none else some pl2)

/-- One swarm under the shard GC pass; `some none` means the swarm is to be
deleted from the shard map. -/
def gcSwarm (c m : Nat) (sw : Swarm) : Option (Option Swarm) :=
  match gcFamilyList c m sw.peers4 with
  | none => none
  | some p4 =>
    match gcFamilyList c m sw.peers6 with
    | none => none
    | some p6 =>
      match p4, p6 with
      | none, none => some none
      | _, _ => some (some ⟨p4, p6⟩)

/-- The per-shard loop of `(*PeerStore).collectGarbage`: GC every swarm,
deleting emptied ones; the `Int` is the accumulated `deltaTorrents` passed
to `unlockShard`. -/
def storeCollectGarbage (c m : Nat) : Shard → Option (Shard × Int)
  | [] => some ([], 0)
  | (ih, sw) :: rest =>
    match gcSwarm c m sw with
    | none => none
    | some osw =>
      match storeCollectGarbage c m rest with
      | none => none
      | some (rest', d) =>
        match osw with
        | none => some (rest', d - 1)
        | some sw' => some ((ih, sw') :: rest', d)

/-- `(*PeerStore).announceSingleStack`: an unknown infohash is `NotFound`;
an absent family list is dereferenced unconditionally, which is a nil
pointer dereference in Go (`panicked`). -/
def storeAnnounce (sh : Shard) (ih : InfoHash) (seeder : Bool) (numWant : Int)
    (p : Peer) (af : AF) (s0 s1 : Nat) : Except StoreErr (List Peer) :=
  match assocLookup sh ih with
  | none => .error .notFound
  | some sw =>
    if af = .v4 then
      match sw.peers4 with
      | none => .error .panicked
      | some pl =>
        match pl.getAnnouncePeers numWant seeder p s0 s1 with
        | none => .error .panicked
        | some ps => .ok ps
    else
      match sw.peers6 with
      | none => .error .panicked
      | some pl =>
        match pl.getAnnouncePeers numWant seeder p s0 s1 with
        | none => .error .panicked
        | some ps => .ok ps

/-- A scrape result (`bittorrent.Scrape`): the echoed infohash and the
`uint32` complete/incomplete counts. -/
structure ScrapeResult where
  infoHash : InfoHash
  complete : Nat
  incomplete : Nat
  deriving DecidableEq, Repr

/-- `(*PeerStore).ScrapeSwarm`: zero counts for an unknown infohash or an
absent family; otherwise the family's counters.  Never returns an error. -/
def storeScrape (sh : Shard) (ih : InfoHash) (af : AF) : ScrapeResult :=
  match assocLookup sh ih with
  | none => ⟨ih, 0, 0⟩
  | some sw =>
    if af = .v6 then
      match sw.peers6 with
      | none => ⟨ih, 0, 0⟩
      | some pl =>
        ⟨ih, (pl.numSeeders % 2 ^ 32).toNat, ((pl.numPeers - pl.numSeeders) % 2 ^ 32).toNat⟩
    else
      match sw.peers4 with
      | none => ⟨ih, 0, 0⟩
      | some pl =>
        ⟨ih, (pl.numSeeders % 2 ^ 32).toNat, ((pl.numPeers - pl.numSeeders) % 2 ^ 32).toNat⟩

/-- `(*PeerStore).GetSeeders`: both families' seeders, or `NotFound`. -/
def storeGetSeeders (sh : Shard) (ih : InfoHash) :
    Except StoreErr (List Peer × List Peer) :=
  match assocLookup sh ih with
  | none => .error .notFound
  | some sw =>
    .ok ((match sw.peers4 with | none => [] | some pl => pl.getAllSeeders),
         (match sw.peers6 with | none => [] | some pl => pl.getAllSeeders))

/-- `(*PeerStore).GetLeechers`: both families' leechers, or `NotFound`. -/
def storeGetLeechers (sh : Shard) (ih : InfoHash) :
    Except StoreErr (List Peer × List Peer) :=
  match assocLookup sh ih with
  | none => .error .notFound
  | some sw =>
    .ok ((match sw.peers4 with | none => [] | some pl => pl.getAllLeechers),
         (match sw.peers6 with | none => [] | some pl => pl.getAllLeechers))

/-- Well-formedness of one family slot: a present list is well-formed and
non-empty (the lifecycle invariant: empty lists are unlinked). -/
def famWF : Option PeerList → Prop
  | none => True
  | some pl => WF pl ∧ 0 < pl.numPeers

instance (o : Option PeerList) : Decidable (famWF o) := by
  cases o <;> simp only [famWF] <;> infer_instance

/-- Well-formedness of a shard: distinct keys, and every present family
list well-formed and non-empty. -/
def WFShard (sh : Shard) : Prop :=
  (sh.map Prod.fst).Nodup ∧ ∀ e ∈ sh, famWF e.2.peers4 ∧ famWF e.2.peers6

instance (sh : Shard) : Decidable (WFShard sh) := by
  unfold WFShard; infer_instance

-- ----------------------------------------------------------------------
-- C10: scrape of a missing (infohash, family)
-- ----------------------------------------------------------------------

/-- C10: scraping an infohash that is absent from the shard, or present
without a peer list for the queried family, yields `complete = 0`,
`incomplete = 0` with the queried infohash echoed; `ScrapeSwarm` has no
error result at all. -/
theorem scrape_missing_zero (sh : Shard) (ih : InfoHash) (af : AF)
    (h : assocLookup sh ih = none ∨
      ∃ sw, assocLookup sh ih = some sw ∧
        (if af = .v6 then sw.peers6 else sw.peers4) = none) :
    storeScrape sh ih af = ⟨ih, 0, 0⟩ := by
  unfold storeScrape
  rcases h with h | ⟨sw, hsw, hfam⟩
  · rw [h]
  · rw [hsw]
    cases af with
    | v4 =>
      rw [if_neg (by simp)] at hfam
      simp [hfam]
    | v6 =>
      rw [if_pos rfl] at hfam
      simp [hfam]

theorem scrape_missing_zero_witness :
    (assocLookup [] (List.replicate 20 0) = none ∨
      ∃ sw, assocLookup [] (List.replicate 20 0) = some sw ∧
        (if AF.v4 = AF.v6 then sw.peers6 else sw.peers4) = none) ∧
    storeScrape [] (List.replicate 20 0) AF.v4 = ⟨List.replicate 20 0, 0, 0⟩ :=
  ⟨Or.inl rfl, scrape_missing_zero [] (List.replicate 20 0) AF.v4 (Or.inl rfl)⟩

-- ----------------------------------------------------------------------
-- C8: announce to a swarm that lacks the queried family
-- ----------------------------------------------------------------------

/-- C8 (amended): when the swarm exists but has no peer list for the
announced family, `announceSingleStack` dereferences the nil list and
panics — it does not return `NotFound` (and, being a read path, it
mutates nothing). -/
theorem announce_absent_family_panics (sh : Shard) (ih : InfoHash) (sw : Swarm)
    (seeder : Bool) (numWant : Int) (p : Peer) (af : AF) (s0 s1 : Nat)
    (hlk : assocLookup sh ih = some sw)
    (hfam : (if af = .v4 then sw.peers4 else sw.peers6) = none) :
    storeAnnounce sh ih seeder numWant p af s0 s1 = .error .panicked := by
  unfold storeAnnounce
  rw [hlk]
  cases af with
  | v4 =>
    rw [if_pos rfl] at hfam
    simp [hfam]
  | v6 =>
    rw [if_neg (by simp)] at hfam
    simp [hfam]

/-- A one-swarm shard whose swarm has only a v6 peer list. -/
def shC8 : Shard := [(List.replicate 20 3, ⟨none, some plC3⟩)]

/-- C8 counterexample: announcing to the v4 family of a well-formed swarm
that has only a v6 list panics instead of returning `NotFound`. -/
theorem announce_absent_family_cex :
    WFShard shC8 ∧
    storeAnnounce shC8 (List.replicate 20 3) false 1 lpC3 .v4 0 0 = .error .panicked ∧
    storeAnnounce shC8 (List.replicate 20 3) false 1 lpC3 .v4 0 0 ≠ .error .notFound := by
  refine ⟨by decide, ?_, ?_⟩ <;> decide

theorem announce_absent_family_witness :
    assocLookup shC8 (List.replicate 20 3) = some ⟨none, some plC3⟩ ∧
    (if AF.v4 = AF.v4 then (Swarm.mk none (some plC3)).peers4
      else (Swarm.mk none (some plC3)).peers6) = none ∧
    storeAnnounce shC8 (List.replicate 20 3) false 1 lpC3 .v4 0 0 = .error .panicked :=
  ⟨by decide, by decide,
    announce_absent_family_panics shC8 (List.replicate 20 3) ⟨none, some plC3⟩
      false 1 lpC3 .v4 0 0 (by decide) (by decide)⟩

-- ----------------------------------------------------------------------
-- C7: put operations with an invalid IP length
-- ----------------------------------------------------------------------

/-- C7 (amended): a put operation (`PutSeeder`, `PutLeecher`,
`GraduateLeecher`) whose peer IP is neither 4 nor 16 bytes long panics in
`setIP` while building the record — before the shard lock is acquired and
before any state is touched; no `InvalidAddress` error is returned. -/
theorem put_invalid_ip_panics (sh : Shard) (ih : InfoHash) (ip : List Nat)
    (port : Nat) (af : AF) (now : Nat)
    (h4 : ip.length ≠ 4) (h16 : ip.length ≠ 16) :
    storePutSeeder sh ih ip port af now = .error .panicked ∧
    storePutLeecher sh ih ip port af now = .error .panicked ∧
    storeGraduateLeecher sh ih ip port af now = .error .panicked := by
  have hto : ipTo16 ip = none := by
    unfold ipTo16
    rw [if_neg h4, if_neg h16]
  have hmk : ∀ flag time, makePeer ip port flag time = none := by
    intro flag time
    unfold makePeer
    rw [hto]
  refine ⟨?_, ?_, ?_⟩
  · unfold storePutSeeder
    rw [hmk]
  · unfold storePutLeecher
    rw [hmk]
  · unfold storeGraduateLeecher storePutSeeder
    rw [hmk]

/-- C7 counterexample: a 3-byte IP makes `PutSeeder` panic; it does not
return the `InvalidAddress` error the claim promises. -/
theorem put_invalid_ip_cex :
    storePutSeeder [] (List.replicate 20 0) [1, 2, 3] 80 .v4 0 = .error .panicked ∧
    storePutSeeder [] (List.replicate 20 0) [1, 2, 3] 80 .v4 0 ≠ .error .invalidIP := by
  refine ⟨?_, ?_⟩ <;> decide

theorem put_invalid_ip_witness :
    ([1, 2, 3] : List Nat).length ≠ 4 ∧ ([1, 2, 3] : List Nat).length ≠ 16 ∧
    (storePutSeeder [] (List.replicate 20 0) [1, 2, 3] 80 .v4 0 = .error .panicked ∧
     storePutLeecher [] (List.replicate 20 0) [1, 2, 3] 80 .v4 0 = .error .panicked ∧
     storeGraduateLeecher [] (List.replicate 20 0) [1, 2, 3] 80 .v4 0 = .error .panicked) :=
  ⟨by decide, by decide,
    put_invalid_ip_panics [] (List.replicate 20 0) [1, 2, 3] 80 .v4 0 (by decide) (by decide)⟩

-- ----------------------------------------------------------------------
-- Rebalancing preserves the counters and the record multiset
-- ----------------------------------------------------------------------

theorem rebalance_counters (pl : PeerList) :
    pl.rebalanceBuckets.1.numPeers = pl.numPeers ∧
    pl.rebalanceBuckets.1.numSeeders = pl.numSeeders := by
  simp only [PeerList.rebalanceBuckets]
  split_ifs <;> exact ⟨rfl, rfl⟩

theorem computeTargetBuckets_fst_pos (n : Int) : 0 < (computeTargetBuckets n).1 := by
  unfold computeTargetBuckets
  split_ifs
  · rw [mulLoopF_eq _ _ _ (Nat.le_refl _), Nat.one_mul]
    exact Nat.pos_pow_of_pos _ (by norm_num)
  · norm_num

theorem flatten_set_append_perm (l : List Bucket) (j : Nat) (v : Bucket)
    (hj : j < l.length) :
    ((l.set j v).flatten ++ l.getD j []).Perm (l.flatten ++ v) := by
  rw [List.set_eq_take_cons_drop v hj, getD_eq_getElem_bucket hj]
  have hl : l.flatten =
      (l.take j).flatten ++ (l[j] ++ (l.drop (j + 1)).flatten) := by
    conv_lhs => rw [← List.take_append_drop j l, List.drop_eq_getElem_cons hj]
    rw [List.flatten_append, List.flatten_cons]
  rw [List.flatten_append, List.flatten_cons, hl]
  rw [List.perm_iff_count]
  intro a
  simp only [List.count_append]
  omega

theorem redistribute_flatten_perm :
    ∀ (peers : List Peer) (acc : List Bucket), 0 < acc.length →
    ((peers.foldl (fun acc q => acc.set (djb2 q.ident % acc.length)
        ((acc.getD (djb2 q.ident % acc.length) []).concat q)) acc).flatten).Perm
      (acc.flatten ++ peers) := by
  intro peers
  induction peers with
  | nil =>
    intro acc _
    simp
  | cons q rest ih =>
    intro acc hacc
    rw [List.foldl_cons]
    have hidx : djb2 q.ident % acc.length < acc.length := Nat.mod_lt _ hacc
    have hstep := flatten_set_append_perm acc (djb2 q.ident % acc.length)
      ((acc.getD (djb2 q.ident % acc.length) []).concat q) hidx
    have hstep2 : ((acc.set (djb2 q.ident % acc.length)
        ((acc.getD (djb2 q.ident % acc.length) []).concat q)).flatten).Perm
        (acc.flatten ++ [q]) := by
      rw [List.perm_iff_count] at hstep ⊢
      intro a
      have h1 := hstep a
      simp only [List.count_append, List.concat_eq_append] at h1 ⊢
      omega
    have hrec := ih (acc.set (djb2 q.ident % acc.length)
        ((acc.getD (djb2 q.ident % acc.length) []).concat q))
      (by rw [List.length_set]; exact hacc)
    refine hrec.trans ?_
    refine (hstep2.append_right rest).trans ?_
    rw [List.append_assoc]
    exact List.Perm.refl _

theorem mapSort_flatten_perm : ∀ (bs : List Bucket),
    ((bs.map sortBucket).flatten).Perm bs.flatten := by
  intro bs
  induction bs with
  | nil => exact List.Perm.refl _
  | cons b rest ih =>
    simp only [List.map_cons, List.flatten_cons]
    exact (List.mergeSort_perm b _).append ih

theorem flatten_replicate_nil : ∀ t : Nat, (List.replicate t ([] : Bucket)).flatten = [] := by
  intro t
  induction t with
  | zero => rfl
  | succ t ih => simpa [List.replicate] using ih

theorem rebalance_flatten_perm (pl : PeerList) :
    pl.rebalanceBuckets.1.peerBuckets.flatten.Perm pl.peerBuckets.flatten := by
  simp only [PeerList.rebalanceBuckets]
  split_ifs with h1 h2
  · exact List.Perm.refl _
  · exact List.Perm.refl _
  · refine (mapSort_flatten_perm _).trans ?_
    refine (redistribute_flatten_perm _ _ ?_).trans ?_
    · rw [List.length_replicate]
      exact computeTargetBuckets_fst_pos _
    · rw [flatten_replicate_nil, List.nil_append]

-- ----------------------------------------------------------------------
-- Association-list lemmas for the shard map
-- ----------------------------------------------------------------------

theorem assocLookup_set_self : ∀ (sh : Shard) (ih : InfoHash) (sw : Swarm),
    assocLookup (assocSet sh ih sw) ih = some sw := by
  intro sh ih sw
  induction sh with
  | nil => simp [assocSet, assocLookup]
  | cons e rest ih2 =>
    obtain ⟨k, v⟩ := e
    simp only [assocSet]
    by_cases hk : k = ih
    · rw [if_pos hk]
      simp [assocLookup, hk]
    · rw [if_neg hk]
      simp [assocLookup, hk, ih2]

theorem assocLookup_none_of_not_mem : ∀ (sh : Shard) (ih : InfoHash),
    ih ∉ sh.map Prod.fst → assocLookup sh ih = none := by
  intro sh ih
  induction sh with
  | nil => intro _; rfl
  | cons e rest ih2 =>
    obtain ⟨k, v⟩ := e
    intro hmem
    simp only [List.map_cons, List.mem_cons] at hmem
    push_neg at hmem
    simp only [assocLookup]
    rw [if_neg (fun h => hmem.1 h.symm)]
    exact ih2 (by simpa using hmem.2)

theorem assocLookup_delete_self : ∀ (sh : Shard) (ih : InfoHash),
    (sh.map Prod.fst).Nodup → assocLookup (assocDelete sh ih) ih = none := by
  intro sh ih
  induction sh with
  | nil => intro _; rfl
  | cons e rest ih2 =>
    obtain ⟨k, v⟩ := e
    intro hnd
    simp only [List.map_cons, List.nodup_cons] at hnd
    simp only [assocDelete]
    by_cases hk : k = ih
    · rw [if_pos hk]
      subst hk
      exact assocLookup_none_of_not_mem rest k hnd.1
    · rw [if_neg hk]
      simp only [assocLookup]
      rw [if_neg hk]
      exact ih2 hnd.2

theorem assocLookup_mem : ∀ (sh : Shard) (ih : InfoHash) (sw : Swarm),
    assocLookup sh ih = some sw → (ih, sw) ∈ sh := by
  intro sh ih sw
  induction sh with
  | nil => intro h; cases h
  | cons e rest ih2 =>
    obtain ⟨k, v⟩ := e
    intro h
    simp only [assocLookup] at h
    by_cases hk : k = ih
    · rw [if_pos hk] at h
      subst hk
      cases h
      exact List.mem_cons_self _ _
    · rw [if_neg hk] at h
      exact List.mem_cons_of_mem _ (ih2 h)

theorem assocSet_keys_present : ∀ (sh : Shard) (ih : InfoHash) (sw0 sw : Swarm),
    assocLookup sh ih = some sw0 →
    (assocSet sh ih sw).map Prod.fst = sh.map Prod.fst := by
  intro sh ih sw0 sw
  induction sh with
  | nil => intro h; cases h
  | cons e rest ih2 =>
    obtain ⟨k, v⟩ := e
    intro h
    simp only [assocLookup] at h
    simp only [assocSet]
    by_cases hk : k = ih
    · rw [if_pos hk]
      simp
    · rw [if_neg hk] at h ⊢
      simp only [List.map_cons]
      rw [ih2 h]

theorem assocSet_length_present : ∀ (sh : Shard) (ih : InfoHash) (sw0 sw : Swarm),
    assocLookup sh ih = some sw0 → (assocSet sh ih sw).length = sh.length := by
  intro sh ih sw0 sw h
  have := assocSet_keys_present sh ih sw0 sw h
  have h1 : ((assocSet sh ih sw).map Prod.fst).length = (sh.map Prod.fst).length := by
    rw [this]
  simpa using h1

theorem assocSet_length_absent : ∀ (sh : Shard) (ih : InfoHash) (sw : Swarm),
    assocLookup sh ih = none → (assocSet sh ih sw).length = sh.length + 1 := by
  intro sh ih sw
  induction sh with
  | nil => intro _; rfl
  | cons e rest ih2 =>
    obtain ⟨k, v⟩ := e
    intro h
    simp only [assocLookup] at h
    simp only [assocSet]
    by_cases hk : k = ih
    · rw [if_pos hk] at h
      cases h
    · rw [if_neg hk] at h
      rw [if_neg hk]
      simp only [List.length_cons]
      rw [ih2 h]

theorem assocDelete_length_present : ∀ (sh : Shard) (ih : InfoHash) (sw0 : Swarm),
    assocLookup sh ih = some sw0 → (assocDelete sh ih).length + 1 = sh.length := by
  intro sh ih sw0
  induction sh with
  | nil => intro h; cases h
  | cons e rest ih2 =>
    obtain ⟨k, v⟩ := e
    intro h
    simp only [assocLookup] at h
    simp only [assocDelete]
    by_cases hk : k = ih
    · rw [if_pos hk]
      rfl
    · rw [if_neg hk] at h
      rw [if_neg hk]
      simp only [List.length_cons]
      rw [← ih2 h]

/-- A successful `removePeer` of a present record (matching identity and
flag) removes the only record with that identity: afterwards the identity
is nowhere in the list. -/
theorem removePeer_success_ident_gone (pl : PeerList) (p q : Peer) (hwf : WF pl)
    (hq : q ∈ allPeers pl) (hid : q.ident = p.ident) (hflag : q.flag = p.flag) :
    ∃ pl1, pl.removePeer p = (pl1, true) ∧
      pl1.numPeers = pl.numPeers - 1 ∧
      pl1.numSeeders = (if q.isSeeder then pl.numSeeders - 1 else pl.numSeeders) ∧
      (∀ r ∈ pl1.peerBuckets.flatten, r.ident ≠ p.ident) := by
  have hqb := mem_hashBucket_of_ident hwf hq hid
  obtain ⟨k, hk, hgk⟩ := mem_getP hqb
  have hid' : (getP (hashBucket pl p) k).ident = p.ident := by rw [hgk]; exact hid
  have hfl' : (getP (hashBucket pl p) k).flag = p.flag := by rw [hgk]; exact hflag
  have hrm := removePeer_match pl p (WF_hashBucket_sorted hwf p) hk hid' hfl'
  refine ⟨_, hrm, rfl, by rw [hgk], ?_⟩
  intro r hr hcontra
  obtain ⟨b', hb', hrb⟩ := List.mem_flatten.mp hr
  obtain ⟨i', hi', hbi'⟩ := List.mem_iff_getElem.mp hb'
  have hi'len : i' < pl.peerBuckets.length := by simpa using hi'
  rw [List.getElem_set] at hbi'
  by_cases hii : bucketIndex pl p = i'
  · rw [if_pos hii] at hbi'
    subst hbi'
    rcases List.mem_append.mp hrb with hr1 | hr2
    · -- a surviving record left of the removed index
      obtain ⟨k', hk', hk'eq⟩ := List.mem_iff_getElem.mp hr1
      have hk'2 : k' < k ∧ k' < (hashBucket pl p).length := by
        simpa [List.length_take] using hk'
      rw [List.getElem_take] at hk'eq
      have hlt := sorted_get_lt (WF_hashBucket_sorted hwf p) hk'2.1 hk
      rw [getP_eq_getElem hk'2.2, hk'eq] at hlt
      rw [hcontra, hid'] at hlt
      rw [bytesCompare_self] at hlt
      cases hlt
    · -- a surviving record right of the removed index
      obtain ⟨t, ht, hteq⟩ := List.mem_iff_getElem.mp hr2
      have ht2 : k + 1 + t < (hashBucket pl p).length := by
        simp only [List.length_drop] at ht
        omega
      rw [List.getElem_drop] at hteq
      have hlt := sorted_get_lt (WF_hashBucket_sorted hwf p)
        (show k < k + 1 + t by omega) ht2
      rw [getP_eq_getElem ht2, hteq] at hlt
      rw [hid', hcontra] at hlt
      rw [bytesCompare_self] at hlt
      cases hlt
  · rw [if_neg hii] at hbi'
    -- a record with p's identity in a different bucket contradicts the hash
    have hrb' : r ∈ pl.peerBuckets.getD i' [] := by
      rw [getD_eq_getElem_bucket hi'len, hbi']
      exact hrb
    have hhash := hwf.2.2.1 i' hi'len r hrb'
    rw [hcontra] at hhash
    exact hii (by rw [bucketIndex, hhash])

/-- Whether the (infohash, family) list holds a record with this identity. -/
def identInShard (sh : Shard) (ih : InfoHash) (af : AF) (id : List Nat) : Bool :=
  match assocLookup sh ih with
  | none => false
  | some sw =>
    match (if af = .v4 then sw.peers4 else sw.peers6) with
    | none => false
    | some pl => pl.peerBuckets.flatten.any (fun q => q.ident == id)

/-- A successful `removePeer` percolates through `deletePeer`: no error is
returned and the identity is gone from the (infohash, family) list. -/
theorem storeDeletePeer_found (sh : Shard) (ih : InfoHash) (p : Peer) (af : AF)
    (sw : Swarm) (pl pl1 : PeerList)
    (hnd : (sh.map Prod.fst).Nodup)
    (hlk : assocLookup sh ih = some sw)
    (hfam : (if af = .v4 then sw.peers4 else sw.peers6) = some pl)
    (hrm : pl.removePeer p = (pl1, true))
    (hgone : ∀ r ∈ pl1.peerBuckets.flatten, r.ident ≠ p.ident) :
    ∃ sh' d, storeDeletePeer sh ih p af = (sh', d, none) ∧
      identInShard sh' ih af p.ident = false := by
  have hndset : ∀ sw1 : Swarm, ((assocSet sh ih sw1).map Prod.fst).Nodup := by
    intro sw1
    rw [assocSet_keys_present sh ih sw sw1 hlk]
    exact hnd
  cases af with
  | v4 =>
    rw [if_pos rfl] at hfam
    unfold storeDeletePeer
    simp only [hlk, hfam, hrm]
    by_cases hnp0 : pl1.numPeers = 0
    · rw [if_pos hnp0]
      by_cases hrem : swarmRemovable ⟨none, sw.peers6⟩ = true
      · rw [if_pos hrem]
        refine ⟨_, _, rfl, ?_⟩
        unfold identInShard
        simp only [assocLookup_delete_self _ _ (hndset _)]
      · rw [if_neg hrem]
        refine ⟨_, _, rfl, ?_⟩
        unfold identInShard
        simp only [assocLookup_set_self, show (AF.v6 = AF.v4) = False from by simp, if_true, if_false]
    · rw [if_neg hnp0]
      have hrem : swarmRemovable ⟨some pl1.rebalanceBuckets.1, sw.peers6⟩ = false := by
        cases h6 : sw.peers6 with
        | none =>
          simp only [swarmRemovable]
          rw [(rebalance_counters pl1).1]
          exact decide_eq_false hnp0
        | some l6 => rfl
      rw [hrem]
      simp only [Bool.false_eq_true, if_false]
      refine ⟨_, _, rfl, ?_⟩
      unfold identInShard
      simp only [assocLookup_set_self, show (AF.v6 = AF.v4) = False from by simp, if_true, if_false]
      rw [List.any_eq_false]
      intro r hr
      have hr1 : r ∈ pl1.peerBuckets.flatten :=
        (rebalance_flatten_perm pl1).mem_iff.mp hr
      simpa using hgone r hr1
  | v6 =>
    rw [if_neg (by simp)] at hfam
    unfold storeDeletePeer
    simp only [hlk, hfam, hrm]
    by_cases hnp0 : pl1.numPeers = 0
    · rw [if_pos hnp0]
      by_cases hrem : swarmRemovable ⟨sw.peers4, none⟩ = true
      · rw [if_pos hrem]
        refine ⟨_, _, rfl, ?_⟩
        unfold identInShard
        simp only [assocLookup_delete_self _ _ (hndset _)]
      · rw [if_neg hrem]
        refine ⟨_, _, rfl, ?_⟩
        unfold identInShard
        simp only [assocLookup_set_self, show (AF.v6 = AF.v4) = False from by simp, if_true, if_false]
    · rw [if_neg hnp0]
      have hrem : swarmRemovable ⟨sw.peers4, some pl1.rebalanceBuckets.1⟩ = false := by
        cases h4 : sw.peers4 with
        | none =>
          simp only [swarmRemovable]
          rw [(rebalance_counters pl1).1]
          exact decide_eq_false hnp0
        | some l4 => rfl
      rw [hrem]
      simp only [Bool.false_eq_true, if_false]
      refine ⟨_, _, rfl, ?_⟩
      unfold identInShard
      simp only [assocLookup_set_self, show (AF.v6 = AF.v4) = False from by simp, if_true, if_false]
      rw [List.any_eq_false]
      intro r hr
      have hr1 : r ∈ pl1.peerBuckets.flatten :=
        (rebalance_flatten_perm pl1).mem_iff.mp hr
      simpa using hgone r hr1

/-- A missed `removePeer` percolates through `deletePeer` as `NotFound`
with the shard unchanged. -/
theorem storeDeletePeer_notfound (sh : Shard) (ih : InfoHash) (p : Peer) (af : AF)
    (sw : Swarm) (pl : PeerList)
    (hlk : assocLookup sh ih = some sw)
    (hfam : (if af = .v4 then sw.peers4 else sw.peers6) = some pl)
    (hrm : pl.removePeer p = (pl, false)) :
    storeDeletePeer sh ih p af = (sh, false, some .notFound) := by
  cases af with
  | v4 =>
    rw [if_pos rfl] at hfam
    unfold storeDeletePeer
    simp only [hlk, hfam, hrm, show (AF.v6 = AF.v4) = False from by simp, if_true, if_false]
  | v6 =>
    rw [if_neg (by simp)] at hfam
    unfold storeDeletePeer
    simp only [hlk, hfam, hrm, show (AF.v6 = AF.v4) = False from by simp, if_true, if_false]

/-- Every stored record carries exactly one of the two role flags. -/
theorem WF_role {pl : PeerList} {q : Peer} (hwf : WF pl) (hq : q ∈ allPeers pl) :
    (q.flag = peerFlagSeeder ∧ q.isSeeder = true ∧ q.isLeecher = false) ∨
    (q.flag = peerFlagLeecher ∧ q.isSeeder = false ∧ q.isLeecher = true) := by
  obtain ⟨b, hb, hqb⟩ := List.mem_flatten.mp hq
  rcases (hwf.2.2.2.1 b hb q hqb).2 with h | h
  · exact Or.inl ⟨h, by simp [Peer.isSeeder, h, peerFlagSeeder],
      by simp [Peer.isLeecher, h, peerFlagSeeder, peerFlagLeecher]⟩
  · exact Or.inr ⟨h, by simp [Peer.isSeeder, h, peerFlagSeeder, peerFlagLeecher],
      by simp [Peer.isLeecher, h, peerFlagLeecher]⟩

/-- `removePeer` with a probe whose identity is stored under the other
role flag: not found, list unchanged. -/
theorem removePeer_wrongRole (pl : PeerList) (p q : Peer) (hwf : WF pl)
    (hq : q ∈ allPeers pl) (hid : q.ident = p.ident) (hflag : q.flag ≠ p.flag) :
    pl.removePeer p = (pl, false) := by
  have hqb := mem_hashBucket_of_ident hwf hq hid
  obtain ⟨k, hk, hgk⟩ := mem_getP hqb
  have hid' : (getP (hashBucket pl p) k).ident = p.ident := by rw [hgk]; exact hid
  have hfl' : (getP (hashBucket pl p) k).flag ≠ p.flag := by rw [hgk]; exact hflag
  exact removePeer_wrongFlag pl p (WF_hashBucket_sorted hwf p) hk hid' hfl'

/-- `To16` always yields 16 bytes when it succeeds. -/
theorem ipTo16_length {ip ip16 : List Nat} (h : ipTo16 ip = some ip16) :
    ip16.length = 16 := by
  unfold ipTo16 at h
  by_cases h4 : ip.length = 4
  · rw [if_pos h4] at h
    cases h
    simp [v4InV6Prefix, h4]
  · rw [if_neg h4] at h
    by_cases h16 : ip.length = 16
    · rw [if_pos h16] at h
      cases h
      exact h16
    · rw [if_neg h16] at h
      cases h

/-- A successful `makePeer` packs `To16(ip) ++ big-endian port` as identity. -/
theorem makePeer_some {ip ip16 : List Nat} {port flag time : Nat}
    (hip : ipTo16 ip = some ip16) :
    makePeer ip port flag time =
      some ⟨ip16 ++ [port / 256 % 256, port % 256], flag, time⟩ := by
  unfold makePeer
  simp only [hip]
  rw [if_pos (ipTo16_length hip)]

-- ----------------------------------------------------------------------
-- C5: delete must match the stored record's role flag
-- ----------------------------------------------------------------------

/-- C5: for every well-formed shard holding a record `q` for an endpoint
(`To16(ip) ++ port` identity) in the (infohash, family) list:
`DeleteSeeder` succeeds with no error and removes the record exactly when
`q` carries the seeder flag, and `DeleteLeecher` exactly when `q` carries
the leecher flag; a delete with the wrong role returns `NotFound` and
leaves the shard unchanged. -/
theorem delete_role_correct (sh : Shard) (ih : InfoHash) (ip : List Nat)
    (port : Nat) (af : AF) (sw : Swarm) (pl : PeerList) (q : Peer)
    (ip16 : List Nat)
    (hwfs : WFShard sh)
    (hlk : assocLookup sh ih = some sw)
    (hfam : (if af = .v4 then sw.peers4 else sw.peers6) = some pl)
    (hq : q ∈ allPeers pl)
    (hip : ipTo16 ip = some ip16)
    (hqid : q.ident = ip16 ++ [port / 256 % 256, port % 256]) :
    (q.isSeeder = true →
      ∃ sh' d, storeDeleteSeeder sh ih ip port af = .ok (sh', d, none) ∧
        identInShard sh' ih af q.ident = false) ∧
    (q.isSeeder = false →
      storeDeleteSeeder sh ih ip port af = .ok (sh, false, some .notFound)) ∧
    (q.isLeecher = true →
      ∃ sh' d, storeDeleteLeecher sh ih ip port af = .ok (sh', d, none) ∧
        identInShard sh' ih af q.ident = false) ∧
    (q.isLeecher = false →
      storeDeleteLeecher sh ih ip port af = .ok (sh, false, some .notFound)) := by
  have hwf : WF pl := by
    have hfamwf := hwfs.2 _ (assocLookup_mem sh ih sw hlk)
    cases af with
    | v4 =>
      rw [if_pos rfl] at hfam
      have h := hfamwf.1
      rw [hfam] at h
      exact h.1
    | v6 =>
      rw [if_neg (by simp)] at hfam
      have h := hfamwf.2
      rw [hfam] at h
      exact h.1
  refine ⟨?_, ?_, ?_, ?_⟩
  · intro hqs
    rcases WF_role hwf hq with ⟨hf, _, _⟩ | ⟨_, hns, _⟩
    · obtain ⟨pl1, hrm1, _, _, hgone⟩ :=
        removePeer_success_ident_gone pl
          ⟨ip16 ++ [port / 256 % 256, port % 256], peerFlagSeeder, 0⟩ q hwf hq
          (by rw [hqid]) (by rw [hf])
      obtain ⟨sh', d, hdel, hgone'⟩ :=
        storeDeletePeer_found sh ih _ af sw pl pl1 hwfs.1 hlk hfam hrm1 hgone
      refine ⟨sh', d, ?_, ?_⟩
      · unfold storeDeleteSeeder
        simp only [makePeer_some hip]
        rw [hdel]
      · rw [hqid]
        exact hgone'
    · rw [hqs] at hns
      cases hns
  · intro hqns
    rcases WF_role hwf hq with ⟨_, hs, _⟩ | ⟨hf, _, _⟩
    · rw [hs] at hqns
      cases hqns
    · have hrm := removePeer_wrongRole pl
        ⟨ip16 ++ [port / 256 % 256, port % 256], peerFlagSeeder, 0⟩ q hwf hq
        (by rw [hqid]) (by rw [hf]; simp [peerFlagSeeder, peerFlagLeecher])
      have hnf := storeDeletePeer_notfound sh ih _ af sw pl hlk hfam hrm
      unfold storeDeleteSeeder
      simp only [makePeer_some hip]
      rw [hnf]
  · intro hql
    rcases WF_role hwf hq with ⟨_, _, hnl⟩ | ⟨hf, _, _⟩
    · rw [hql] at hnl
      cases hnl
    · obtain ⟨pl1, hrm1, _, _, hgone⟩ :=
        removePeer_success_ident_gone pl
          ⟨ip16 ++ [port / 256 % 256, port % 256], peerFlagLeecher, 0⟩ q hwf hq
          (by rw [hqid]) (by rw [hf])
      obtain ⟨sh', d, hdel, hgone'⟩ :=
        storeDeletePeer_found sh ih _ af sw pl pl1 hwfs.1 hlk hfam hrm1 hgone
      refine ⟨sh', d, ?_, ?_⟩
      · unfold storeDeleteLeecher
        simp only [makePeer_some hip]
        rw [hdel]
      · rw [hqid]
        exact hgone'
  · intro hqnl
    rcases WF_role hwf hq with ⟨hf, _, _⟩ | ⟨_, _, hl⟩
    · have hrm := removePeer_wrongRole pl
        ⟨ip16 ++ [port / 256 % 256, port % 256], peerFlagLeecher, 0⟩ q hwf hq
        (by rw [hqid]) (by rw [hf]; simp [peerFlagSeeder, peerFlagLeecher])
      have hnf := storeDeletePeer_notfound sh ih _ af sw pl hlk hfam hrm
      unfold storeDeleteLeecher
      simp only [makePeer_some hip]
      rw [hnf]
    · rw [hl] at hqnl
      cases hqnl

def ipC5 : List Nat := List.replicate 16 9

def ihC5 : InfoHash := List.replicate 20 4

def qC5 : Peer := ⟨ipC5 ++ [0, 0], peerFlagSeeder, 5⟩

def plC5 : PeerList := ⟨1, 1, 0, [[qC5]]⟩

def swC5 : Swarm := ⟨some plC5, none⟩

def shC5 : Shard := [(ihC5, swC5)]

/-- Witness for `delete_role_correct` on a one-swarm shard holding a
single seeder record. -/
theorem delete_role_correct_witness :
    WFShard shC5 ∧ assocLookup shC5 ihC5 = some swC5 ∧
    (if AF.v4 = AF.v4 then swC5.peers4 else swC5.peers6) = some plC5 ∧
    qC5 ∈ allPeers plC5 ∧ ipTo16 ipC5 = some ipC5 ∧
    qC5.ident = ipC5 ++ [0 / 256 % 256, 0 % 256] ∧
    ((qC5.isSeeder = true →
      ∃ sh' d, storeDeleteSeeder shC5 ihC5 ipC5 0 .v4 = .ok (sh', d, none) ∧
        identInShard sh' ihC5 .v4 qC5.ident = false) ∧
    (qC5.isSeeder = false →
      storeDeleteSeeder shC5 ihC5 ipC5 0 .v4 = .ok (shC5, false, some .notFound)) ∧
    (qC5.isLeecher = true →
      ∃ sh' d, storeDeleteLeecher shC5 ihC5 ipC5 0 .v4 = .ok (sh', d, none) ∧
        identInShard sh' ihC5 .v4 qC5.ident = false) ∧
    (qC5.isLeecher = false →
      storeDeleteLeecher shC5 ihC5 ipC5 0 .v4 = .ok (shC5, false, some .notFound))) :=
  ⟨by decide, rfl, rfl, by decide, rfl, rfl,
    delete_role_correct shC5 ihC5 ipC5 0 .v4 swC5 plC5 qC5 ipC5
      (by decide) rfl rfl (by decide) rfl rfl⟩

/-- GC of one family slot never fails on a well-formed list and never
leaves a present-but-empty list: an emptied list is unlinked (`none`). -/
theorem gcFamilyList_spec (c m : Nat) (o : Option PeerList) (ho : famWF o) :
    ∃ o', gcFamilyList c m o = some o' ∧
      ∀ l, o' = some l → l.numPeers ≠ 0 := by
  cases o with
  | none =>
    refine ⟨none, rfl, ?_⟩
    intro l h
    cases h
  | some pl =>
    obtain ⟨pl2, hrun, hval, hwf2⟩ :=
      gcLoopF_spec (pl.peerBuckets.length + 1) c m pl 0 false ho.1 (by omega)
    rw [List.drop_zero] at hrun
    have hcg : pl.collectGarbage c m =
        some (pl2, pl.peerBuckets.flatten.any (staleP c m)) := by
      unfold PeerList.collectGarbage
      rw [hrun, Bool.false_or]
    unfold gcFamilyList
    simp only [hcg]
    refine ⟨_, rfl, ?_⟩
    intro l hl
    by_cases hz :
        (if pl.peerBuckets.flatten.any (staleP c m) then pl2.rebalanceBuckets.1
          else pl2).numPeers = 0
    · rw [if_pos hz] at hl
      cases hl
    · rw [if_neg hz] at hl
      cases hl
      exact hz

/-- GC of one swarm: never fails on well-formed family slots, and every
surviving family list is non-empty. -/
theorem gcSwarm_spec (c m : Nat) (sw : Swarm)
    (h4 : famWF sw.peers4) (h6 : famWF sw.peers6) :
    ∃ osw, gcSwarm c m sw = some osw ∧
      ∀ sw', osw = some sw' →
        (∀ l, sw'.peers4 = some l → l.numPeers ≠ 0) ∧
        (∀ l, sw'.peers6 = some l → l.numPeers ≠ 0) := by
  obtain ⟨p4, h4run, h4ne⟩ := gcFamilyList_spec c m sw.peers4 h4
  obtain ⟨p6, h6run, h6ne⟩ := gcFamilyList_spec c m sw.peers6 h6
  unfold gcSwarm
  simp only [h4run, h6run]
  cases p4 with
  | none =>
    cases p6 with
    | none =>
      refine ⟨none, rfl, ?_⟩
      intro sw' h
      cases h
    | some l6 =>
      refine ⟨some ⟨none, some l6⟩, rfl, ?_⟩
      intro sw' h
      cases h
      refine ⟨?_, ?_⟩
      · intro l hl
        cases hl
      · intro l hl
        cases hl
        exact h6ne l6 rfl
  | some l4 =>
    refine ⟨some ⟨some l4, p6⟩, ?_, ?_⟩
    · cases p6 <;> rfl
    · intro sw' h
      cases h
      refine ⟨?_, ?_⟩
      · intro l hl
        cases hl
        exact h4ne l4 rfl
      · intro l hl
        exact h6ne l (by rw [← hl])

/-- The shard GC pass: never fails on a well-formed shard, the accumulated
`deltaTorrents` equals the change in swarm count, and no surviving swarm
keeps a present-but-empty family list. -/
theorem storeCollectGarbage_spec (c m : Nat) : ∀ sh : Shard, WFShard sh →
    ∃ sh1 d, storeCollectGarbage c m sh = some (sh1, d) ∧
      d = (sh1.length : Int) - sh.length ∧
      ∀ e ∈ sh1, (∀ l, e.2.peers4 = some l → l.numPeers ≠ 0) ∧
        (∀ l, e.2.peers6 = some l → l.numPeers ≠ 0) := by
  intro sh
  induction sh with
  | nil =>
    intro _
    refine ⟨[], 0, rfl, by simp, ?_⟩
    intro e he
    cases he
  | cons e rest ihr =>
    intro hwfs
    obtain ⟨ihh, sw⟩ := e
    have hfam := hwfs.2 (ihh, sw) (List.mem_cons_self _ _)
    obtain ⟨osw, hrunsw, hprop⟩ := gcSwarm_spec c m sw hfam.1 hfam.2
    have hrest : WFShard rest := by
      refine ⟨?_, fun e he => hwfs.2 e (List.mem_cons_of_mem _ he)⟩
      have := hwfs.1
      rw [List.map_cons, List.nodup_cons] at this
      exact this.2
    obtain ⟨rest', d, hrunr, hd, hner⟩ := ihr hrest
    unfold storeCollectGarbage
    simp only [hrunsw, hrunr]
    cases osw with
    | none =>
      refine ⟨rest', d - 1, rfl, ?_, hner⟩
      rw [hd]
      simp only [List.length_cons]
      push_cast
      ring
    | some sw' =>
      refine ⟨(ihh, sw') :: rest', d, rfl, ?_, ?_⟩
      · rw [hd]
        simp only [List.length_cons]
        push_cast
        ring
      · intro e' he'
        rcases List.mem_cons.mp he' with h | h
        · rw [h]
          exact hprop sw' rfl
        · exact hner e' h

-- ----------------------------------------------------------------------
-- C6: emptied family lists are unlinked, empty swarms removed
-- ----------------------------------------------------------------------

/-- C6: (delete path) when a delete empties a family's peer list
(`removePeer` succeeded and left `numPeers = 0`) the family slot is
unlinked: the swarm is deleted from the shard exactly when the other
family is also absent — then the lookup, `GetSeeders` and `GetLeechers`
all yield `NotFound` and the swarm count drops by one — and otherwise the
swarm survives with the emptied family slot set to `none`.  (GC path) the
per-shard GC pass succeeds on every well-formed shard, its accumulated
`deltaTorrents` equals the change in swarm count, and no surviving swarm
keeps a present-but-empty family list. -/
theorem swarm_cleanup_correct (sh : Shard) (ih : InfoHash) (p : Peer) (af : AF)
    (sw : Swarm) (pl pl1 : PeerList) (c m : Nat)
    (hwfs : WFShard sh)
    (hlk : assocLookup sh ih = some sw)
    (hfam : (if af = .v4 then sw.peers4 else sw.peers6) = some pl)
    (hrm : pl.removePeer p = (pl1, true))
    (hlast : pl1.numPeers = 0) :
    (∃ sh' deleted, storeDeletePeer sh ih p af = (sh', deleted, none) ∧
      (deleted = true →
        assocLookup sh' ih = none ∧
        (sh'.length : Int) = sh.length + deleteUnlockDelta deleted ∧
        storeGetSeeders sh' ih = .error .notFound ∧
        storeGetLeechers sh' ih = .error .notFound) ∧
      (deleted = false →
        assocLookup sh' ih =
          some (if af = .v4 then ⟨none, sw.peers6⟩ else ⟨sw.peers4, none⟩) ∧
        sh'.length = sh.length) ∧
      (deleted = true ↔ (if af = .v4 then sw.peers6 else sw.peers4) = none)) ∧
    (∀ sh0 : Shard, WFShard sh0 →
      ∃ sh1 d, storeCollectGarbage c m sh0 = some (sh1, d) ∧
        d = (sh1.length : Int) - sh0.length ∧
        ∀ e ∈ sh1, (∀ l, e.2.peers4 = some l → l.numPeers ≠ 0) ∧
          (∀ l, e.2.peers6 = some l → l.numPeers ≠ 0)) := by
  refine ⟨?_, storeCollectGarbage_spec c m⟩
  have hfams := hwfs.2 _ (assocLookup_mem sh ih sw hlk)
  cases af with
  | v4 =>
    rw [if_pos rfl] at hfam
    unfold storeDeletePeer
    simp only [hlk, hfam, hrm, if_true, if_false]
    rw [if_pos hlast]
    cases h6 : sw.peers6 with
    | none =>
      rw [if_pos (show swarmRemovable ⟨none, (none : Option PeerList)⟩ = true from rfl)]
      have hnd1 : ((assocSet sh ih ⟨none, none⟩).map Prod.fst).Nodup := by
        rw [assocSet_keys_present sh ih sw _ hlk]
        exact hwfs.1
      have hlknone := assocLookup_delete_self _ ih hnd1
      have h3 : (assocDelete (assocSet sh ih ⟨none, none⟩) ih).length + 1 = sh.length := by
        rw [assocDelete_length_present _ ih _ (assocLookup_set_self sh ih _),
          assocSet_length_present sh ih sw _ hlk]
      refine ⟨_, true, rfl, ?_, ?_, by simp⟩
      · intro _
        refine ⟨hlknone, ?_, ?_, ?_⟩
        · unfold deleteUnlockDelta
          rw [if_pos rfl]
          omega
        · unfold storeGetSeeders
          simp only [hlknone]
        · unfold storeGetLeechers
          simp only [hlknone]
      · intro h
        cases h
    | some l6 =>
      have hl6 : l6.numPeers ≠ 0 := by
        have h2 := hfams.2
        rw [h6] at h2
        have := h2.2
        omega
      have hrem : swarmRemovable ⟨none, some l6⟩ = false := by
        simp only [swarmRemovable]
        exact decide_eq_false hl6
      rw [hrem]
      simp only [Bool.false_eq_true, if_false]
      refine ⟨_, false, rfl, ?_, ?_, by simp⟩
      · intro h
        cases h
      · intro _
        exact ⟨by simp [assocLookup_set_self], assocSet_length_present sh ih sw _ hlk⟩
  | v6 =>
    rw [if_neg (by simp)] at hfam
    unfold storeDeletePeer
    simp only [hlk, hfam, hrm, show (AF.v6 = AF.v4) = False from by simp, if_true, if_false]
    rw [if_pos hlast]
    cases h4 : sw.peers4 with
    | none =>
      rw [if_pos (show swarmRemovable ⟨(none : Option PeerList), none⟩ = true from rfl)]
      have hnd1 : ((assocSet sh ih ⟨none, none⟩).map Prod.fst).Nodup := by
        rw [assocSet_keys_present sh ih sw _ hlk]
        exact hwfs.1
      have hlknone := assocLookup_delete_self _ ih hnd1
      have h3 : (assocDelete (assocSet sh ih ⟨none, none⟩) ih).length + 1 = sh.length := by
        rw [assocDelete_length_present _ ih _ (assocLookup_set_self sh ih _),
          assocSet_length_present sh ih sw _ hlk]
      refine ⟨_, true, rfl, ?_, ?_, by simp⟩
      · intro _
        refine ⟨hlknone, ?_, ?_, ?_⟩
        · unfold deleteUnlockDelta
          rw [if_pos rfl]
          omega
        · unfold storeGetSeeders
          simp only [hlknone]
        · unfold storeGetLeechers
          simp only [hlknone]
      · intro h
        cases h
    | some l4 =>
      have hl4 : l4.numPeers ≠ 0 := by
        have h2 := hfams.1
        rw [h4] at h2
        have := h2.2
        omega
      have hrem : swarmRemovable ⟨some l4, none⟩ = false := by
        simp only [swarmRemovable]
        exact decide_eq_false hl4
      rw [hrem]
      simp only [Bool.false_eq_true, if_false]
      refine ⟨_, false, rfl, ?_, ?_, by simp⟩
      · intro h
        cases h
      · intro _
        exact ⟨by simp [assocLookup_set_self], assocSet_length_present sh ih sw _ hlk⟩

def ihC6 : InfoHash := List.replicate 20 6

def qC6 : Peer := ⟨List.replicate 16 8 ++ [0, 0], peerFlagSeeder, 5⟩

def pC6 : Peer := ⟨List.replicate 16 8 ++ [0, 0], peerFlagSeeder, 0⟩

def plC6 : PeerList := ⟨1, 1, 0, [[qC6]]⟩

def pl1C6 : PeerList := ⟨0, 0, 0, [[]]⟩

def swC6 : Swarm := ⟨some plC6, none⟩

def shC6 : Shard := [(ihC6, swC6)]

/-- Witness for `swarm_cleanup_correct`: deleting the only seeder of a
one-family swarm. -/
theorem swarm_cleanup_correct_witness :
    WFShard shC6 ∧ assocLookup shC6 ihC6 = some swC6 ∧
    (if AF.v4 = AF.v4 then swC6.peers4 else swC6.peers6) = some plC6 ∧
    plC6.removePeer pC6 = (pl1C6, true) ∧ pl1C6.numPeers = 0 ∧
    ((∃ sh' deleted, storeDeletePeer shC6 ihC6 pC6 .v4 = (sh', deleted, none) ∧
      (deleted = true →
        assocLookup sh' ihC6 = none ∧
        (sh'.length : Int) = shC6.length + deleteUnlockDelta deleted ∧
        storeGetSeeders sh' ihC6 = .error .notFound ∧
        storeGetLeechers sh' ihC6 = .error .notFound) ∧
      (deleted = false →
        assocLookup sh' ihC6 =
          some (if AF.v4 = AF.v4 then ⟨none, swC6.peers6⟩ else ⟨swC6.peers4, none⟩) ∧
        sh'.length = shC6.length) ∧
      (deleted = true ↔ (if AF.v4 = AF.v4 then swC6.peers6 else swC6.peers4) = none)) ∧
    (∀ sh0 : Shard, WFShard sh0 →
      ∃ sh1 d, storeCollectGarbage 100 5 sh0 = some (sh1, d) ∧
        d = (sh1.length : Int) - sh0.length ∧
        ∀ e ∈ sh1, (∀ l, e.2.peers4 = some l → l.numPeers ≠ 0) ∧
          (∀ l, e.2.peers6 = some l → l.numPeers ≠ 0))) :=
  ⟨by decide, rfl, rfl, by decide, rfl,
    swarm_cleanup_correct shC6 ihC6 pC6 .v4 swC6 plC6 pl1C6 100 5
      (by decide) rfl rfl (by decide) rfl⟩

/-- The shard GC pass never adds swarms. -/
theorem storeCollectGarbage_length_le (c m : Nat) : ∀ (sh sh1 : Shard) (d : Int),
    storeCollectGarbage c m sh = some (sh1, d) → sh1.length ≤ sh.length := by
  intro sh
  induction sh with
  | nil =>
    intro sh1 d heq
    simp only [storeCollectGarbage, Option.some.injEq, Prod.mk.injEq] at heq
    rw [← heq.1]
  | cons e rest ihr =>
    intro sh1 d heq
    obtain ⟨ihh, sw⟩ := e
    unfold storeCollectGarbage at heq
    cases hsw : gcSwarm c m sw with
    | none =>
      simp only [hsw] at heq
      cases heq
    | some osw =>
      simp only [hsw] at heq
      cases hr : storeCollectGarbage c m rest with
      | none =>
        simp only [hr] at heq
        cases heq
      | some pr =>
        obtain ⟨rest', d'⟩ := pr
        simp only [hr] at heq
        have hle := ihr rest' d' hr
        cases osw with
        | none =>
          simp only [Option.some.injEq, Prod.mk.injEq] at heq
          rw [← heq.1]
          simp only [List.length_cons]
          omega
        | some sw' =>
          simp only [Option.some.injEq, Prod.mk.injEq] at heq
          rw [← heq.1]
          simp only [List.length_cons]
          omega

/-- Deleting a swarm that was (re-)set under a present key shrinks the
shard by exactly one. -/
theorem delete_swarm_length (sh : Shard) (ih : InfoHash) (sw0 sw1 : Swarm)
    (hlk : assocLookup sh ih = some sw0) :
    (assocDelete (assocSet sh ih sw1) ih).length + 1 = sh.length := by
  rw [assocDelete_length_present _ ih _ (assocLookup_set_self sh ih _),
    assocSet_length_present sh ih sw0 _ hlk]

-- ----------------------------------------------------------------------
-- C9: the swarm-count deltas handed to the shard write-unlock
-- ----------------------------------------------------------------------

def plC9a : PeerList := ⟨0, 1, 0, [[⟨List.replicate 18 1, peerFlagLeecher, 4⟩]]⟩

def plC9b : PeerList := ⟨0, 1, 0, [[⟨List.replicate 18 2, peerFlagLeecher, 4⟩]]⟩

def shC9 : Shard :=
  [(List.replicate 20 1, ⟨some plC9a, none⟩), (List.replicate 20 2, ⟨some plC9b, none⟩)]

def ihC9x : InfoHash := List.replicate 20 1

def pC9w : Peer := ⟨List.replicate 18 1, peerFlagLeecher, 0⟩

/-- C9 counterexample: a GC pass over a well-formed two-swarm shard whose
peers are all stale removes both swarms and hands `-2` to the single
write-unlock — outside the claimed `{-1, 0, +1}` domain. -/
theorem gc_unlock_delta_cex :
    WFShard shC9 ∧
    storeCollectGarbage 100 5 shC9 = some ([], -2) ∧
    ¬((-2 : Int) = -1 ∨ (-2 : Int) = 0 ∨ (-2 : Int) = 1) := by
  refine ⟨by decide, by decide, by decide⟩

/-- C9 (amended): `putPeer` passes delta `+1` to the unlock exactly when it
creates the swarm and `0` otherwise; `deletePeer`'s deferred unlock gets
`-1` exactly when the swarm was deleted and `0` otherwise — in both cases
the delta equals the change in the shard's swarm count.  The GC pass's
single unlock, however, receives the ACCUMULATED count change of the whole
shard: never positive, but any negative value (one per removed swarm), not
confined to `{-1, 0, +1}`. -/
theorem unlock_delta_correct (sh : Shard) (ih : InfoHash) (p : Peer) (af : AF)
    (c m : Nat) :
    ((storePutPeer sh ih p af).2 = if assocLookup sh ih = none then 1 else 0) ∧
    (((storePutPeer sh ih p af).1.length : Int) =
      sh.length + (storePutPeer sh ih p af).2) ∧
    (((storeDeletePeer sh ih p af).1.length : Int) =
      sh.length + deleteUnlockDelta (storeDeletePeer sh ih p af).2.1) ∧
    (WFShard sh →
      ∃ sh1 d, storeCollectGarbage c m sh = some (sh1, d) ∧
        d = (sh1.length : Int) - sh.length ∧ d ≤ 0) := by
  refine ⟨?_, ?_, ?_, ?_⟩
  · cases hlk : assocLookup sh ih with
    | none => simp only [storePutPeer, hlk, if_true, if_false]
    | some sw =>
      simp only [storePutPeer, hlk]
      cases af with
      | v4 =>
        simp only [if_true, if_false, show (AF.v4 = AF.v4) = True from by simp]
        cases sw.peers4 <;> simp
      | v6 =>
        simp only [show (AF.v6 = AF.v4) = False from by simp, if_true, if_false]
        cases sw.peers6 <;> simp
  · cases hlk : assocLookup sh ih with
    | none =>
      simp only [storePutPeer, hlk]
      rw [assocSet_length_absent sh ih _ hlk]
      push_cast
      ring
    | some sw =>
      simp only [storePutPeer, hlk]
      cases af with
      | v4 =>
        simp only [if_true, if_false, show (AF.v4 = AF.v4) = True from by simp]
        cases sw.peers4 <;>
          simp [assocSet_length_present sh ih sw _ hlk]
      | v6 =>
        simp only [show (AF.v6 = AF.v4) = False from by simp, if_true, if_false]
        cases sw.peers6 <;>
          simp [assocSet_length_present sh ih sw _ hlk]
  · unfold storeDeletePeer
    cases hlk : assocLookup sh ih with
    | none =>
      simp only [hlk]
      simp [deleteUnlockDelta]
    | some sw =>
      simp only [hlk]
      have hlen1 : ∀ sw1 : Swarm,
          ((assocDelete (assocSet sh ih sw1) ih).length : Int) = (sh.length : Int) - 1 := by
        intro sw1
        have h := delete_swarm_length sh ih sw sw1 hlk
        omega
      have hlen2 : ∀ sw1 : Swarm,
          ((assocSet sh ih sw1).length : Int) = (sh.length : Int) := by
        intro sw1
        have h := assocSet_length_present sh ih sw sw1 hlk
        omega
      split
      all_goals try split
      all_goals try split
      all_goals try split
      all_goals try split
      all_goals try split
      all_goals simp only [deleteUnlockDelta, eq_self_iff_true, if_true,
        Bool.false_eq_true, if_false, hlen1, hlen2]
      all_goals omega
  · intro hwfs
    obtain ⟨sh1, d, hrun, hd, _⟩ := storeCollectGarbage_spec c m sh hwfs
    have hle := storeCollectGarbage_length_le c m sh sh1 d hrun
    exact ⟨sh1, d, hrun, hd, by omega⟩

/-- Witness for `unlock_delta_correct` on the two-swarm shard. -/
theorem unlock_delta_correct_witness :
    ((storePutPeer shC9 ihC9x pC9w .v4).2 =
      if assocLookup shC9 ihC9x = none then 1 else 0) ∧
    (((storePutPeer shC9 ihC9x pC9w .v4).1.length : Int) =
      shC9.length + (storePutPeer shC9 ihC9x pC9w .v4).2) ∧
    (((storeDeletePeer shC9 ihC9x pC9w .v4).1.length : Int) =
      shC9.length + deleteUnlockDelta (storeDeletePeer shC9 ihC9x pC9w .v4).2.1) ∧
    (WFShard shC9 →
      ∃ sh1 d, storeCollectGarbage 100 5 shC9 = some (sh1, d) ∧
        d = (sh1.length : Int) - shC9.length ∧ d ≤ 0) :=
  unlock_delta_correct shC9 ihC9x pC9w .v4 100 5
